import Mathlib

/-!
# Verification of the git-toolbox decomposition/reconciliation pipeline

A shallow embedding of the core of the `git-toolbox` repository:

* the Toolbox line scanner (`src/toolbox/scanner.rs`),
* the label-grouped and unique-id-grouped splitters
  (`src/toolbox/dictionary/split/record_splitter.rs`, `id_splitter.rs`),
* the path sharder and label sanitizer (`src/util.rs`),
* the content diff engine (`src/repository/diff.rs`),
* the staging coordinator (`src/repository/staging_area.rs`).

Rust string slices are modelled as `List Char`; iterators as explicit
recursion over lists; the lazy scanner as a step function plus a fuel-driven
unfolding whose fuel provably suffices.  External collaborators (git store,
unicode tables, the id regex) are modelled as explicit parameters or as
ASCII-faithful functions, documented at each definition.
-/

namespace GitToolbox

/-- Rust `&str` / `String`, modelled as a list of characters. -/
abbrev Str := List Char

/-- Rust `str::trim` (whitespace removed from both ends). -/
def trimStr (s : Str) : Str :=
  ((s.dropWhile Char.isWhitespace).reverse.dropWhile Char.isWhitespace).reverse

/-- Rust `s.trim().is_empty()`: the line consists of whitespace only. -/
def isBlankStr (s : Str) : Bool :=
  s.all Char.isWhitespace

/-- Rust `line.trim_end_matches(|c| c == '\r' || c == '\n')`. -/
def dropTrailingCRLF (s : Str) : Str :=
  (s.reverse.dropWhile (fun c => c = '\r' || c = '\n')).reverse

/-- Helper for `splitTerm`: plain split on newline characters. -/
def splitNLAux : Str → Str → List Str
  | [], acc => [acc.reverse]
  | c :: rest, acc =>
    if c = '\n' then acc.reverse :: splitNLAux rest []
    else splitNLAux rest (c :: acc)

/-- Rust `str::split_terminator('\n')`: like split, but a trailing empty
segment produced by a final terminator is omitted, and the empty string
yields no segments. -/
def splitTerm (text : Str) : List Str :=
  if text = [] then []
  else if text.getLast? = some '\n' then (splitNLAux text []).dropLast
  else splitNLAux text []

/-- Start offsets of each segment returned by `splitTerm` (segment `i`
starts after the newline terminating segment `i-1`). -/
def segsWithOffsets (segs : List Str) (off : Nat) : List (Nat × Str) :=
  match segs with
  | [] => []
  | seg :: rest => (off, seg) :: segsWithOffsets rest (off + seg.length + 1)

/-- The `end` computation of `trim_trailing_empty_lines`: walk the lines from
the back; while a line is blank move `end` to its start offset, stop at the
first non-blank line. -/
def pickEnd : List (Nat × Str) → Nat → Nat
  | [], e => e
  | (off, seg) :: rest, e => if isBlankStr seg then pickEnd rest off else e

/-- `trim_trailing_empty_lines` from `src/toolbox/scanner.rs` (internal
module): removes any trailing blank lines from a string slice, keeping the
newline that terminates the last non-blank line. -/
def trimTrailingEmptyLines (text : Str) : Str :=
  let revSegs := (segsWithOffsets (splitTerm text) 0).reverse
  text.take (pickEnd revSegs text.length)

/-- A line in a text stream (`Line` in `src/toolbox/scanner.rs`). -/
structure Line where
  line : Nat
  text : Str
deriving Repr, DecidableEq

/-- A structural token of a toolbox file (`Token` in `src/toolbox/scanner.rs`). -/
inductive Token where
  | recordBegin : Token
  | recordEnd (body : Str) : Token
  | tagged (tag text : Str) : Token
  | untagged (text : Str) : Token
  | blank : Token
deriving Repr, DecidableEq

/-- `ParsedLine` from the scanner's internal module. -/
inductive ParsedLine where
  | tagged (tag value : Str) : ParsedLine
  | untagged (text : Str) : ParsedLine
  | blank : ParsedLine
deriving Repr, DecidableEq

/-- `ParsedLine::from`: a line starting with a backslash is tagged (tag =
leading run up to the first whitespace, backslash included; value = the
rest); an all-whitespace line is blank; anything else is untagged. -/
def parsedLineFrom (line : Str) : ParsedLine :=
  if line.head? = some '\\' then
    let e := match line.findIdx? Char.isWhitespace with
      | some i => i
      | none => line.length
    ParsedLine.tagged (line.take e) (line.drop e)
  else if isBlankStr line then ParsedLine.blank
  else ParsedLine.untagged line

/-- The toolbox scanner state (`Scanner` in `src/toolbox/scanner.rs`).
The Rust queue is an `ArrayVec` used LIFO (push/pop at the back); here the
list head plays the role of the back, so `push` is `cons` and `pop` takes
the head. -/
structure Scanner where
  text : Str
  next_line_i : Nat
  record_tag : Str
  queue : List Token
  last_line : Line
  start : Option Str
deriving Repr, DecidableEq

/-- `Scanner::from`. -/
def Scanner.fromText (text : Str) (record_tag : Str) : Scanner :=
  { text := text
    next_line_i := 0
    record_tag := record_tag
    queue := []
    last_line := { line := 0, text := text }
    start := none }

/-- Offset one past the end of the first line of `text` (the newline is part
of the line), mirroring `text.find('\n').map_or(text.len(), |i| i+1)`. -/
def lineEndOf (text : Str) : Nat :=
  match text.findIdx? (fun c => c = '\n') with
  | some i => i + 1
  | none => text.length

/-- The `(Line, …)` value reported for the line currently at the front of
`s.text` (trailing `\r`/`\n` markers removed, as in the Rust source). -/
def Scanner.currentLine (s : Scanner) : Line :=
  { line := s.next_line_i, text := dropTrailingCRLF (s.text.take (lineEndOf s.text)) }

/-- The state after consuming the line currently at the front of `s.text`
(text set to the tail, line bookkeeping advanced; queue and start as
before). -/
def Scanner.afterLine (s : Scanner) : Scanner :=
  { s with
      text := s.text.drop (lineEndOf s.text)
      last_line := s.currentLine
      next_line_i := s.next_line_i + 1 }

/-- One step of `<Scanner as Iterator>::next`.  The record-boundary branch
performs the Rust sequence push `Tagged`, push `RecordBegin`, (if a record
was open) push `RecordEnd`, then pop the top token: with an open record the
popped token is the `RecordEnd` and the queue keeps
`[RecordBegin, Tagged]`; otherwise the popped token is `RecordBegin` and the
queue keeps `[Tagged]`.  An open record's body is the exact source text from
the saved start to the current line (the Rust pointer subtraction becomes a
`take` on the saved suffix). -/
def Scanner.next (s : Scanner) : Option ((Line × Token) × Scanner) :=
  match s.queue with
  | t :: qrest => some ((s.last_line, t), { s with queue := qrest })
  | [] =>
    if s.text.isEmpty then
      match s.start with
      | some st =>
        some ((s.last_line, Token.recordEnd (trimTrailingEmptyLines st)),
              { s with start := none })
      | none => none
    else
      match parsedLineFrom (dropTrailingCRLF (s.text.take (lineEndOf s.text))) with
      | ParsedLine.tagged tag txt =>
        if tag = s.record_tag then
          match s.start with
          | some st =>
            some ((s.currentLine,
                   Token.recordEnd
                     (trimTrailingEmptyLines (st.take (st.length - s.text.length)))),
                  { s.afterLine with
                      queue := [Token.recordBegin, Token.tagged tag txt]
                      start := some s.text })
          | none =>
            some ((s.currentLine, Token.recordBegin),
                  { s.afterLine with
                      queue := [Token.tagged tag txt]
                      start := some s.text })
        else
          some ((s.currentLine, Token.tagged tag txt), s.afterLine)
      | ParsedLine.untagged txt =>
        some ((s.currentLine, Token.untagged txt), s.afterLine)
      | ParsedLine.blank =>
        some ((s.currentLine, Token.blank), s.afterLine)

/-- Weight of the open-record marker in the termination measure. -/
def startWeight : Option Str → Nat
  | none => 0
  | some _ => 1

/-- Termination measure for iterating the scanner: each `next` step strictly
decreases it. -/
def measureS (s : Scanner) : Nat :=
  3 * s.text.length + s.queue.length + startWeight s.start

theorem lineEndOf_pos (text : Str) (h : text ≠ []) : 1 ≤ lineEndOf text := by
  unfold lineEndOf
  cases hf : text.findIdx? (fun c => c = '\n') with
  | some i => simp
  | none =>
    cases text with
    | nil => exact absurd rfl h
    | cons c cs => simp

theorem Scanner.next_measure (s s' : Scanner) (it : Line × Token)
    (h : s.next = some (it, s')) : measureS s' < measureS s := by
  unfold Scanner.next at h
  split at h
  next t qrest hq =>
    injection h with h1
    injection h1 with h2 h3
    subst h3
    simp only [measureS, hq, List.length_cons]
    omega
  next hq =>
    split at h
    next he =>
      split at h
      next st hs =>
        injection h with h1
        injection h1 with h2 h3
        subst h3
        simp only [measureS, hq, hs, startWeight, List.length_nil]
        omega
      next hs => exact Option.noConfusion h
    next he =>
      have htne : s.text ≠ [] := by
        intro hx; rw [hx] at he; exact he rfl
      have hle : 1 ≤ lineEndOf s.text := lineEndOf_pos s.text htne
      have hlen : 1 ≤ s.text.length := by
        cases hc : s.text with
        | nil => exact absurd hc htne
        | cons c cs => simp
      split at h
      next tag txt hp =>
        split at h
        next htag =>
          split at h
          next st hs =>
            injection h with h1
            injection h1 with h2 h3
            subst h3
            simp only [measureS, Scanner.afterLine, hq, hs, startWeight,
              List.length_drop, List.length_nil, List.length_cons]
            omega
          next hs =>
            injection h with h1
            injection h1 with h2 h3
            subst h3
            simp only [measureS, Scanner.afterLine, hq, hs, startWeight,
              List.length_drop, List.length_nil, List.length_cons]
            omega
        next htag =>
          injection h with h1
          injection h1 with h2 h3
          subst h3
          cases hs : s.start <;>
            simp only [measureS, Scanner.afterLine, hq, hs, startWeight,
              List.length_drop, List.length_nil] <;>
            omega
      next txt hp =>
        injection h with h1
        injection h1 with h2 h3
        subst h3
        cases hs : s.start <;>
          simp only [measureS, Scanner.afterLine, hq, hs, startWeight,
            List.length_drop, List.length_nil] <;>
          omega
      next hp =>
        injection h with h1
        injection h1 with h2 h3
        subst h3
        cases hs : s.start <;>
          simp only [measureS, Scanner.afterLine, hq, hs, startWeight,
            List.length_drop, List.length_nil] <;>
          omega

/-- Fuel-driven iteration of the scanner; `run` below supplies provably
sufficient fuel. -/
def runFuel : Nat → Scanner → List (Line × Token)
  | 0, _ => []
  | fuel + 1, s =>
    match s.next with
    | none => []
    | some (it, s') => it :: runFuel fuel s'

theorem runFuel_succ_none {n : Nat} {s : Scanner} (h : s.next = none) :
    runFuel (n + 1) s = [] := by
  conv_lhs => rw [runFuel]
  rw [h]

theorem runFuel_succ_some {n : Nat} {s s' : Scanner} {it : Line × Token}
    (h : s.next = some (it, s')) : runFuel (n + 1) s = it :: runFuel n s' := by
  conv_lhs => rw [runFuel]
  rw [h]

theorem runFuel_congr : ∀ (n m : Nat) (s : Scanner),
    measureS s < n → measureS s < m → runFuel n s = runFuel m s := by
  intro n
  induction n with
  | zero => intro m s h _; omega
  | succ k ih =>
    intro m s hn hm
    cases m with
    | zero => omega
    | succ m' =>
      cases hnext : s.next with
      | none => rw [runFuel_succ_none hnext, runFuel_succ_none hnext]
      | some p =>
        obtain ⟨it, s'⟩ := p
        have hd := Scanner.next_measure s s' it hnext
        rw [runFuel_succ_some hnext, runFuel_succ_some hnext,
          ih m' s' (by omega) (by omega)]

/-- The full (finite, single-consumption) token stream of a scanner: the
sequence of `(Line, Token)` pairs obtained by iterating `next` to
exhaustion. -/
def Scanner.run (s : Scanner) : List (Line × Token) :=
  runFuel (measureS s + 1) s

theorem Scanner.run_none {s : Scanner} (h : s.next = none) : s.run = [] :=
  runFuel_succ_none h

theorem Scanner.run_some {s s' : Scanner} {it : Line × Token}
    (h : s.next = some (it, s')) : s.run = it :: s'.run := by
  have hd := Scanner.next_measure s s' it h
  unfold Scanner.run
  rw [runFuel_succ_some h,
    runFuel_congr (measureS s) (measureS s' + 1) s' (by omega) (by omega)]

/-- A scanner item, as yielded by iteration (`ScannerItem` in the source). -/
abbrev ScannerItem := Line × Token

/-- `deunicode`'s per-char ASCII transliteration used by `sanitize_label`
(external crate): modelled as the identity on ASCII code points and as
unknown (`'_'` substitution) beyond ASCII. -/
def asciiCharsOf (c : Char) : Str :=
  if c.toNat ≤ 127 then [c] else ['_']

/-- `sanitize_label` from `src/util.rs`: transliterate to ASCII, keep
alphanumerics lower-cased, replace everything else by `'_'`, and collapse
runs of `'_'`. -/
def sanitize_label (label : Str) : Str :=
  ((label.map asciiCharsOf).flatten.map
      (fun c => if c.isAlphanum then c.toLower else '_')).foldl
    (fun buff c =>
      if c = '_' ∧ buff.getLast? = some '_' then buff else buff ++ [c]) []

/-- Consume a list in chunks of two (the `Itertools::chunks(2)` call in
`build_path_prefix`). -/
def chunks2 : Str → List Str
  | [] => []
  | [a] => [[a]]
  | a :: b :: rest => [a, b] :: chunks2 rest

/-- Canonical decomposition of a single code point (the external
`unicode_normalization::nfd` iterator).  The decomposition tables live
outside this repository; `buildPathPrefix` therefore takes the map as a
parameter, and `nfdChar` is the ASCII-faithful instance (NFD is the
identity on ASCII) used where the source applies the sharder. -/
def nfdChar (c : Char) : Str := [c]

/-- `build_path_prefix` from `src/util.rs`: canonically decompose the name,
keep alphanumeric code points, take the first four (padding with `'_'`),
chunk into pairs and join with `'/'`.  (The Rust alphanumeric test is the
Unicode one; `Char.isAlphanum` agrees with it on ASCII.) -/
def buildPathPrefix (nfd : Char → Str) (name : Str) : Str :=
  (chunks2 ((((name.map nfd).flatten.filter Char.isAlphanum).take 4
      ++ List.replicate 4 '_').take 4)).foldl
    (fun accum s => (if accum.isEmpty then accum else accum ++ ['/']) ++ s) []

/-- `ToolboxFileIssue` from `src/toolbox/issue.rs`. -/
inductive ToolboxFileIssue where
  | lineBeforeFirstRecord (line : Line)
  | untaggedLine (line : Line)
  | missingRecordLabel (line : Line)
  | missingID (line : Line)
  | invalidID (record : Line) (line : Line)
  | extraneousID (record : Line) (line : Line)
  | ambiguousID (record : Line) (line : Line)
  | missingDictionaryHeader (line : Nat)
deriving Repr, DecidableEq

/-- `ToolboxFileIssue::line`: the source line an issue is reported at. -/
def ToolboxFileIssue.line : ToolboxFileIssue → Nat
  | lineBeforeFirstRecord l => l.line
  | untaggedLine l => l.line
  | missingRecordLabel l => l.line
  | missingID l => l.line
  | invalidID _ l => l.line
  | extraneousID _ l => l.line
  | ambiguousID _ l => l.line
  | missingDictionaryHeader n => n

/-- A text data object stored in the filesystem (`Clob` in
`src/repository/diff.rs`). -/
structure Clob where
  path : Str
  content : Str
deriving Repr, DecidableEq

/-- The `multimap::MultiMap` used by both splitters, modelled as an
association list from keys to the insertion-ordered list of values; the
key order is the first-insertion order (the crate leaves it unspecified). -/
abbrev MultiMap (α β : Type) : Type := List (α × List β)

/-- `MultiMap::insert`: append the value to the key's list, creating the
key if absent. -/
def mmInsert {α β : Type} [DecidableEq α] (m : MultiMap α β) (k : α) (v : β) :
    MultiMap α β :=
  match m with
  | [] => [(k, [v])]
  | (k', vs) :: rest =>
    if k' = k then (k', vs ++ [v]) :: rest else (k', vs) :: mmInsert rest k v

/-- The initial `try_for_each` scan shared by both splitters
(`record_splitter.rs` lines 32-62, `id_splitter.rs` lines 70-101): collect
content occurring before the first record into the orphan block, reporting
one line-before-first-record issue per non-blank line, and stop right after
the first `RecordBegin`. -/
def preludeScan (orphans : List Str) :
    List ScannerItem → List Str × List ToolboxFileIssue × List ScannerItem
  | [] => (orphans, [], [])
  | (ln, tok) :: rest =>
    match tok with
    | Token.recordBegin => (orphans, [], rest)
    | Token.tagged _ _ =>
      let r := preludeScan (orphans ++ [ln.text]) rest
      (r.1, ToolboxFileIssue.lineBeforeFirstRecord ln :: r.2.1, r.2.2)
    | Token.untagged _ =>
      let r := preludeScan (orphans ++ [ln.text]) rest
      (r.1, ToolboxFileIssue.lineBeforeFirstRecord ln :: r.2.1, r.2.2)
    | Token.blank =>
      preludeScan
        (if (orphans.getLast?.map (fun l => !isBlankStr l)).getD false
         then orphans ++ [[]] else orphans) rest
    | Token.recordEnd _ => preludeScan orphans rest

/-- The main token loop of `record_splitter::split` (lines 70-104): track
the sanitized label of the current record and insert each record body into
the label-keyed multimap at its `RecordEnd`. -/
def recordLoop (rtag : Str) :
    List ScannerItem → Str → MultiMap Str Str →
    MultiMap Str Str × List ToolboxFileIssue
  | [], _, m => (m, [])
  | (ln, tok) :: rest, label, m =>
    match tok with
    | Token.tagged tag txt =>
      if tag = rtag then
        let t := trimStr txt
        let r := recordLoop rtag rest (sanitize_label (trimStr t)) m
        (r.1,
         (if t = [] then [ToolboxFileIssue.missingRecordLabel ln] else []) ++ r.2)
      else recordLoop rtag rest label m
    | Token.untagged _ =>
      let r := recordLoop rtag rest label m
      (r.1, ToolboxFileIssue.untaggedLine ln :: r.2)
    | Token.recordEnd body => recordLoop rtag rest [] (mmInsert m label body)
    | _ => recordLoop rtag rest label m

/-- Clob construction for one label group (`record_splitter.rs` lines
107-121): empty labels route to the reserved bucket, others get a sharded
path; the group's record bodies are newline-joined. -/
def recordClobOf (kv : Str × List Str) : Clob :=
  { path :=
      if kv.1 = [] then "invalid/label_missing.txt".toList
      else buildPathPrefix nfdChar kv.1 ++ '/' :: (kv.1 ++ ".txt".toList)
    content := List.intercalate ['\n'] kv.2 }

/-- The orphan block text (both splitters): newline-join the orphaned
lines and ensure a final newline. -/
def orphanBlockText (orphans : List Str) : Str :=
  if (List.intercalate ['\n'] orphans).getLast? = some '\n'
  then List.intercalate ['\n'] orphans
  else List.intercalate ['\n'] orphans ++ ['\n']

/-- The orphan block clob (both splitters): emit `invalid/__.txt` only when
the block is not blank. -/
def orphanClobs (orphans : List Str) : List Clob :=
  if isBlankStr (orphanBlockText orphans) then []
  else [{ path := "invalid/__.txt".toList, content := orphanBlockText orphans }]

/-- `record_splitter::split`, decomposed into its grouping map, orphan
block, and issue list (in emission order: pre-existing issues, prelude
issues, main-loop issues; this splitter performs no sort). -/
def recordSplitParts (rtag : Str) (items : List ScannerItem)
    (issues0 : List ToolboxFileIssue) :
    MultiMap Str Str × List Str × List ToolboxFileIssue :=
  let p := preludeScan [] items
  let r := recordLoop rtag p.2.2 [] []
  (r.1, p.1, issues0 ++ p.2.1 ++ r.2)

/-- The clob stream returned by `record_splitter::split`. -/
def recordSplitClobs (rtag : Str) (items : List ScannerItem) : List Clob :=
  (recordSplitParts rtag items []).1.map recordClobOf
    ++ orphanClobs (recordSplitParts rtag items []).2.1

/-- The issue list returned by `record_splitter::split`. -/
def recordSplitIssues (rtag : Str) (items : List ScannerItem)
    (issues0 : List ToolboxFileIssue) : List ToolboxFileIssue :=
  (recordSplitParts rtag items issues0).2.2

/-- The `ID` key of the unique-id splitter (`id_splitter.rs`): the full
matched text, the optional trimmed namespace group, and the trimmed
non-empty id group. -/
structure ID where
  full : Str
  ns : Option Str
  id : Str
deriving Repr, DecidableEq

/-- The result of matching the configured id pattern against a value: the
overall match (`get(0)`) plus the `namespace` and `id` named groups.  This
models the external `regex` crate; the compiled pattern itself is an
external input, so the splitter takes the capture function as a
parameter. -/
structure IdCaptures where
  m0 : Str
  ns : Option Str
  idGroup : Str
deriving Repr, DecidableEq

/-- `extract_id` from `id_splitter.rs`: match the value in full against the
pattern, trim the groups, drop an empty namespace, and reject an empty
id. -/
def extract_id (cap : Str → Option IdCaptures) (text : Str) : Option ID :=
  match cap text with
  | none => none
  | some c =>
    if c.m0 = text then
      if trimStr c.idGroup = [] then none
      else
        some { full := text
               ns := match c.ns with
                 | some v => if trimStr v = [] then none else some (trimStr v)
                 | none => none
               id := trimStr c.idGroup }
    else none

/-- One record occurrence stored in the id map: `(record start line, id
line, record body)`. -/
abbrev IdRecord := Line × Line × Str

/-- The main token loop of `id_splitter::split` (lines 117-190): track the
current record's start line and first successfully parsed id, report
extraneous/invalid/missing-id issues, and at each `RecordEnd` insert the
body into the id-keyed multimap or the missing-id list. -/
def idLoop (rtag idtag : Str) (cap : Str → Option IdCaptures) :
    List ScannerItem → Line → Line → Option ID →
    MultiMap ID IdRecord → List Str →
    MultiMap ID IdRecord × List Str × List ToolboxFileIssue
  | [], _, _, _, m, missing => (m, missing, [])
  | (ln, tok) :: rest, rstart, ridline, rid, m, missing =>
    match tok with
    | Token.tagged tag txt =>
      if tag = rtag then
        let r := idLoop rtag idtag cap rest ln ridline rid m missing
        (r.1, r.2.1,
         (if trimStr txt = [] then [ToolboxFileIssue.missingRecordLabel ln] else [])
           ++ r.2.2)
      else if tag = idtag then
        let extIss :=
          if rid.isSome then [ToolboxFileIssue.extraneousID rstart ln] else []
        match extract_id cap (trimStr txt) with
        | some i =>
          match rid with
          | none =>
            let r := idLoop rtag idtag cap rest rstart ln (some i) m missing
            (r.1, r.2.1, extIss ++ r.2.2)
          | some _ =>
            let r := idLoop rtag idtag cap rest rstart ridline rid m missing
            (r.1, r.2.1, extIss ++ r.2.2)
        | none =>
          let r := idLoop rtag idtag cap rest rstart ridline rid m missing
          (r.1, r.2.1,
           extIss ++ ToolboxFileIssue.invalidID rstart ln :: r.2.2)
      else idLoop rtag idtag cap rest rstart ridline rid m missing
    | Token.untagged _ =>
      let r := idLoop rtag idtag cap rest rstart ridline rid m missing
      (r.1, r.2.1, ToolboxFileIssue.untaggedLine ln :: r.2.2)
    | Token.recordEnd body =>
      match rid with
      | some i =>
        idLoop rtag idtag cap rest rstart ridline none
          (mmInsert m i (rstart, ridline, body)) missing
      | none =>
        let r := idLoop rtag idtag cap rest rstart ridline none m
          (missing ++ [body])
        (r.1, r.2.1, ToolboxFileIssue.missingID rstart :: r.2.2)
    | _ => idLoop rtag idtag cap rest rstart ridline rid m missing

/-- The ambiguous-id pass (`id_splitter.rs` lines 192-202): one
ambiguous-id issue per occurrence, for every id held by more than one
record. -/
def ambiguousIssuesOf (m : MultiMap ID IdRecord) : List ToolboxFileIssue :=
  ((m.filter (fun kv => decide (1 < kv.2.length))).map
    (fun kv => kv.2.map (fun r => ToolboxFileIssue.ambiguousID r.1 r.2.1))).flatten

/-- Insertion step of the by-line issue sort. -/
def insertByLine (i : ToolboxFileIssue) :
    List ToolboxFileIssue → List ToolboxFileIssue
  | [] => [i]
  | j :: rest =>
    if i.line ≤ j.line then i :: j :: rest else j :: insertByLine i rest

/-- The `sort_unstable_by_key(|issue| issue.line())` call of the id
splitter, modelled as insertion sort (any sort by the line key realizes
it). -/
def sortByLine : List ToolboxFileIssue → List ToolboxFileIssue
  | [] => []
  | i :: rest => insertByLine i (sortByLine rest)

/-- `id_splitter::split`, decomposed into the grouping map, the missing-id
record list, the orphan block, and the sorted issue list. -/
def idSplitParts (rtag idtag : Str) (cap : Str → Option IdCaptures)
    (items : List ScannerItem) (issues0 : List ToolboxFileIssue) :
    MultiMap ID IdRecord × List Str × List Str × List ToolboxFileIssue :=
  let p := preludeScan [] items
  let r := idLoop rtag idtag cap p.2.2
    { line := 0, text := [] } { line := 0, text := [] } none [] []
  (r.1, r.2.1, p.1,
   sortByLine (issues0 ++ p.2.1 ++ r.2.2 ++ ambiguousIssuesOf r.1))

/-- Clob construction for one id group (`id_splitter.rs` lines 208-222):
namespaced ids go under `private/`, the rest under `public/` with a shard
of the id part; the group's record bodies are newline-joined. -/
def idClobOf (kv : ID × List IdRecord) : Clob :=
  { path :=
      match kv.1.ns with
      | some ns => "private/".toList ++ ns ++ '/' :: (kv.1.full ++ ".txt".toList)
      | none =>
        "public/".toList ++ buildPathPrefix nfdChar kv.1.id
          ++ '/' :: (kv.1.full ++ ".txt".toList)
    content := List.intercalate ['\n'] (kv.2.map (fun r => r.2.2)) }

/-- The always-emitted missing-id bucket clob (`id_splitter.rs` lines
224-228): note there is no blank filter on this chain. -/
def idMissingClob (missing : List Str) : Clob :=
  { path := "invalid/id_missing.txt".toList
    content := List.intercalate ['\n'] missing }

/-- The clob stream returned by `id_splitter::split`. -/
def idSplitClobs (rtag idtag : Str) (cap : Str → Option IdCaptures)
    (items : List ScannerItem) : List Clob :=
  (idSplitParts rtag idtag cap items []).1.map idClobOf
    ++ [idMissingClob (idSplitParts rtag idtag cap items []).2.1]
    ++ orphanClobs (idSplitParts rtag idtag cap items []).2.2.1

/-- The issue list returned by `id_splitter::split`. -/
def idSplitIssues (rtag idtag : Str) (cap : Str → Option IdCaptures)
    (items : List ScannerItem) (issues0 : List ToolboxFileIssue) :
    List ToolboxFileIssue :=
  (idSplitParts rtag idtag cap items issues0).2.2.2

/-! ## Dictionary header detection (`src/toolbox/dictionary/dictionary_header.rs`) -/

/-- Consume a literal at the front of `l`. -/
def eatLiteral (pat l : Str) : Option Str :=
  if pat.isPrefixOf l then some (l.drop pat.length) else none

/-- Consume one-or-more whitespace characters (`[[:space:]]+`). -/
def eatWS1 (l : Str) : Option Str :=
  match l with
  | c :: rest =>
    if c.isWhitespace then some (rest.dropWhile Char.isWhitespace) else none
  | [] => none

/-- Consume one-or-more decimal digits (`[0-9]+`). -/
def eatDigits1 (l : Str) : Option Str :=
  match l with
  | c :: rest => if c.isDigit then some (rest.dropWhile Char.isDigit) else none
  | [] => none

/-- The header pattern of `expect_toolbox_dictionary_header`, the regex
`\_sh[[:space:]]+v3\.0[[:space:]]+[0-9]+[[:space:]]+Dictionary[[:space:]]*`
anchored at both ends, written as an explicit parser (the `regex` crate is
external). -/
def isDictHeaderLine (l : Str) : Bool :=
  ((((((eatLiteral "\\_sh".toList l).bind eatWS1).bind
      (eatLiteral "v3.0".toList)).bind eatWS1).bind eatDigits1).bind
        (fun r => (eatWS1 r).bind (eatLiteral "Dictionary".toList))).any
    (fun r => (r.dropWhile Char.isWhitespace).isEmpty)

/-- Fuel-driven loop of `expect_toolbox_dictionary_header`: skip blank
lines, accept when the next non-blank line matches the header grammar
(scanner advanced past it), otherwise report the offending line number; at
end of input report the last line number. -/
def expectHeaderFuel : Nat → Scanner → Except Nat Scanner
  | 0, s => Except.error s.last_line.line
  | n + 1, s =>
    match s.next with
    | none => Except.error s.last_line.line
    | some ((line, tok), s') =>
      match tok with
      | Token.blank => expectHeaderFuel n s'
      | _ =>
        if isDictHeaderLine line.text then Except.ok s' else Except.error line.line

/-- `Scanner::expect_toolbox_dictionary_header` (the fuel provably exceeds
the number of scanner steps). -/
def expectHeader (s : Scanner) : Except Nat Scanner :=
  expectHeaderFuel (measureS s + 1) s

/-- The non-strict header handling of `Dictionary::load`: on a missing
header, record the issue and reset the scanner to the start of the text. -/
def loadScannerNonStrict (text rtag : Str) : Scanner × List ToolboxFileIssue :=
  match expectHeader (Scanner.fromText text rtag) with
  | Except.ok s => (s, [])
  | Except.error l =>
    (Scanner.fromText text rtag, [ToolboxFileIssue.missingDictionaryHeader l])

/-- End-to-end label-mode pipeline on a raw text (non-strict load followed
by `record_splitter::split`), returning the emitted clobs. -/
def labelModeClobs (text rtag : Str) : List Clob :=
  recordSplitClobs rtag ((loadScannerNonStrict text rtag).1).run

/-! ## Content diff engine (`src/repository/diff.rs`) -/

/-- A filesystem update action (`ClobDiff` in `src/repository/diff.rs`). -/
inductive ClobDiff where
  | add (clob : Clob)
  | update (clob : Clob)
  | delete (path : Str)
deriving Repr, DecidableEq

/-- An index entry as used by the diff engine (only the object id is
consulted). -/
structure IndexEntry where
  id : Nat
deriving Repr, DecidableEq

/-- One `git status` entry under the queried pathspec (tracked text files,
unmodified included, ignored excluded); only the index-deleted flag is
consulted by the diff loop. -/
structure StatusEntry where
  path : Str
  indexDeleted : Bool
deriving Repr, DecidableEq

/-- Read access to the git store consumed by `diff_clobs_at_path`
(external `git2` collaborator): the status query result for the root
pathspec, index lookup by exact path, blob lookup by id, and content
hashing (`Oid::hash_object`, with object ids modelled as naturals). -/
structure GitStore where
  statuses : List StatusEntry
  index : Str → Option IndexEntry
  blobs : Nat → Option Str
  hashBlob : Str → Nat

/-- Rust `str::to_lowercase`; `Char.toLower` agrees with it on ASCII (clob
paths are ASCII by the `Clob::validated` assertion). -/
def toLowerStr (s : Str) : Str := s.map Char.toLower

/-- `path_bytes().ends_with(b".txt")`. -/
def endsWithTxt (p : Str) : Bool := ".txt".toList.isSuffixOf p

/-- `HashSet::insert` on the existing-path set, modelled as an
insertion-ordered duplicate-free list. -/
def clobsetInsert (cs : List Str) (p : Str) : List Str :=
  if p ∈ cs then cs else cs ++ [p]

/-- The existing-path set built from the status entries (`diff.rs` lines
230-249): tracked `.txt` files not deleted in the index, keyed by the
lower-cased path. -/
def buildClobset : List StatusEntry → List Str → List Str
  | [], cs => cs
  | e :: rest, cs =>
    if ¬ endsWithTxt e.path then buildClobset rest cs
    else if e.indexDeleted then buildClobset rest cs
    else buildClobset rest (clobsetInsert cs (toLowerStr e.path))

/-- A clob with the root prefix added to its path (`format!("{}/{}", root,
clob.path)`). -/
def mkFull (root : Str) (c : Clob) : Clob :=
  { c with path := root ++ '/' :: c.path }

/-- The per-clob decision of the diff loop (`diff.rs` lines 266-283).
`none` models the error propagation of the failed blob lookup (`?`); note
the Rust `||` short-circuit: the stored blob is fetched only when the
hashes agree. -/
def clobDecision (st : GitStore) (full : Clob) : Option (Option ClobDiff) :=
  match st.index full.path with
  | some entry =>
    if st.hashBlob full.content ≠ entry.id then some (some (ClobDiff.update full))
    else
      match st.blobs entry.id with
      | none => none
      | some bytes =>
        if bytes ≠ full.content then some (some (ClobDiff.update full))
        else some none
  | none => some (some (ClobDiff.add full))

/-- The clob walk of `diff_clobs_at_path` (lines 255-289): claim each
clob's lower-cased full path in the existing-path set, then append the
clob's decision to the action list. -/
def diffLoop (st : GitStore) (root : Str) :
    List Clob → List Str → List ClobDiff → Option (List ClobDiff × List Str)
  | [], cs, acc => some (acc, cs)
  | c :: rest, cs, acc =>
    match clobDecision st (mkFull root c) with
    | none => none
    | some none =>
      diffLoop st root rest
        (cs.filter (fun p => p ≠ toLowerStr (mkFull root c).path)) acc
    | some (some d) =>
      diffLoop st root rest
        (cs.filter (fun p => p ≠ toLowerStr (mkFull root c).path)) (acc ++ [d])

/-- `Repository::diff_clobs_at_path`: build the existing-path set, walk the
clobs, and turn every unclaimed tracked path into a `Delete`. -/
def diffClobsAtPath (st : GitStore) (root : Str) (clobs : List Clob) :
    Option (List ClobDiff) :=
  match diffLoop st root clobs (buildClobset st.statuses []) [] with
  | none => none
  | some (acc, remaining) => some (acc ++ remaining.map ClobDiff.delete)

/-! ## Staging coordinator (`src/repository/staging_area.rs`)

`stage_diffs` is modelled by the trace of filesystem/index operations it
performs, in order.  The trailing empty-directory cleanup loop is omitted
from the trace: it only issues filesystem `remove_dir` attempts and touches
neither files nor the index.  `commit` performs the single `index.write()`.
-/

/-- One observable operation performed by the staging coordinator. -/
inductive StageEffect where
  | mkdirAll (path : Str)
  | fsWrite (path : Str) (content : Str)
  | fsRemoveFile (path : Str)
  | indexAdd (path : Str)
  | indexRemove (path : Str)
  | indexWrite
deriving Repr, DecidableEq

/-- `Path::join` of the repository workdir with a (relative) clob path. -/
def pathJoin (workdir p : Str) : Str := workdir ++ '/' :: p

/-- `Path::parent` of a path containing a separator: everything before the
last `'/'`. -/
def parentPath (p : Str) : Str :=
  ((p.reverse.dropWhile (fun c => c ≠ '/')).drop 1).reverse

/-- The operations performed for one change action (`stage_diffs`, lines
65-114).  Faithful to the source: for `Add`/`Update` the directories are
created for the workdir-joined `full_path`, but the file write itself
targets `clob.path` as given (resolved against the process current
directory), and the index registration uses the relative path; for
`Delete` both the file removal (workdir-joined) and the index removal are
consistent. -/
def stageEffectsOf (workdir : Str) : ClobDiff → List StageEffect
  | ClobDiff.add clob =>
    [StageEffect.mkdirAll (parentPath (pathJoin workdir clob.path)),
     StageEffect.fsWrite clob.path clob.content,
     StageEffect.indexAdd clob.path]
  | ClobDiff.update clob =>
    [StageEffect.mkdirAll (parentPath (pathJoin workdir clob.path)),
     StageEffect.fsWrite clob.path clob.content,
     StageEffect.indexAdd clob.path]
  | ClobDiff.delete p =>
    [StageEffect.fsRemoveFile (pathJoin workdir p),
     StageEffect.indexRemove p]

/-- The trace of `StagingArea::stage_diffs` over a batch. -/
def stageDiffsTrace (workdir : Str) (diffs : List ClobDiff) : List StageEffect :=
  (diffs.map (stageEffectsOf workdir)).flatten

/-- The trace of `StagingArea::commit`: the one index write of a batch. -/
def stageCommitTrace : List StageEffect := [StageEffect.indexWrite]

/-! ## Theorems -/

theorem exists_four_of_length {α : Type} :
    ∀ {l : List α}, l.length = 4 → ∃ a b c d, l = [a, b, c, d] := by
  intro l h
  cases l with
  | nil => simp at h
  | cons a l1 =>
    cases l1 with
    | nil => simp at h
    | cons b l2 =>
      cases l2 with
      | nil => simp at h
      | cons c l3 =>
        cases l3 with
        | nil => simp at h
        | cons d l4 =>
          cases l4 with
          | nil => exact ⟨a, b, c, d, rfl⟩
          | cons e l5 => simp at h

/-- C6 — Sharder shape and determinism: `build_path_prefix` is a pure
function (a Lean `def`), and for every name and every canonical
decomposition map it returns two `/`-joined segments of length two (hence
at most two), whose concatenation is the first four alphanumeric code
points of the decomposed name padded with `'_'`. -/
theorem sharder_two_segments (nfd : Char → Str) (name : Str) :
    ∃ s1 s2 : Str,
      buildPathPrefix nfd name = s1 ++ '/' :: s2 ∧
      s1.length ≤ 2 ∧ s2.length ≤ 2 ∧ s1.length = 2 ∧ s2.length = 2 ∧
      s1 ++ s2 =
        (((name.map nfd).flatten.filter Char.isAlphanum).take 4
          ++ List.replicate 4 '_').take 4 := by
  have h4 :
      ((((name.map nfd).flatten.filter Char.isAlphanum).take 4
        ++ List.replicate 4 '_').take 4).length = 4 := by
    simp [List.length_take]
  obtain ⟨a, b, c, d, habcd⟩ := exists_four_of_length h4
  refine ⟨[a, b], [c, d], ?_, by simp, by simp, by simp, by simp, habcd.symm⟩
  unfold buildPathPrefix
  rw [habcd]
  rfl

/-- C7 counterexample — on the scenario's literal text
`"\sh v3.0 1 Dictionary\n\lx foo\n\ge bar\n"` (whose header line does not
match the `\_sh` header grammar, so the non-strict loader resets the
scanner and the header line becomes orphan content), label-mode splitting
emits two content objects, not one, and the record object's content keeps
its trailing newline. -/
theorem scenario_label_mode_counterexample :
    labelModeClobs "\\sh v3.0 1 Dictionary\n\\lx foo\n\\ge bar\n".toList
        "\\lx".toList =
      [{ path := "fo/o_/foo.txt".toList, content := "\\lx foo\n\\ge bar\n".toList },
       { path := "invalid/__.txt".toList,
         content := "\\sh v3.0 1 Dictionary\n".toList }] ∧
    (labelModeClobs "\\sh v3.0 1 Dictionary\n\\lx foo\n\\ge bar\n".toList
        "\\lx".toList).length ≠ 1 := by
  constructor
  · decide
  · decide

/-- C7 amended — with the header spelled `\_sh` (matching the dictionary
header grammar) the loader consumes the header line and label-mode
splitting emits exactly one content object, whose path is
`fo/o_/foo.txt` (= `shard("foo")/foo.txt`) and whose content is
`"\lx foo\n\ge bar\n"` (the record body keeps the trailing newline of its
last line). -/
theorem scenario_label_mode_amended :
    labelModeClobs "\\_sh v3.0 1 Dictionary\n\\lx foo\n\\ge bar\n".toList
        "\\lx".toList =
      [{ path := "fo/o_/foo.txt".toList,
         content := "\\lx foo\n\\ge bar\n".toList }] := by
  decide

/-- C9 — Staging application, evaluated at a concrete batch: the per-action
loop creates the parent directories of the workdir-joined path and
registers the relative path in the index, but the file write targets the
clob's relative path as given (resolved against the process current
directory) instead of the workdir-joined path; deletes consistently use
the workdir-joined path; and the batch's only index write is the one
performed by `commit`. -/
theorem staging_trace_at_batch :
    stageDiffsTrace "/repo".toList
        [ClobDiff.add { path := "aa/bb.txt".toList, content := "X".toList },
         ClobDiff.delete "aa/cc.txt".toList] =
      [StageEffect.mkdirAll "/repo/aa".toList,
       StageEffect.fsWrite "aa/bb.txt".toList "X".toList,
       StageEffect.indexAdd "aa/bb.txt".toList,
       StageEffect.fsRemoveFile "/repo/aa/cc.txt".toList,
       StageEffect.indexRemove "aa/cc.txt".toList] ∧
    StageEffect.fsWrite "/repo/aa/bb.txt".toList "X".toList ∉
      stageDiffsTrace "/repo".toList
        [ClobDiff.add { path := "aa/bb.txt".toList, content := "X".toList },
         ClobDiff.delete "aa/cc.txt".toList] ∧
    StageEffect.indexWrite ∉
      stageDiffsTrace "/repo".toList
        [ClobDiff.add { path := "aa/bb.txt".toList, content := "X".toList },
         ClobDiff.delete "aa/cc.txt".toList] ∧
    stageCommitTrace = [StageEffect.indexWrite] := by
  refine ⟨by decide, by decide, by decide, rfl⟩

theorem idClobOf_path_head (kv : ID × List IdRecord) :
    (idClobOf kv).path.head? = some 'p' := by
  unfold idClobOf
  cases kv.1.ns <;> rfl

theorem countP_map_idClobOf_eq_zero (m : MultiMap ID IdRecord) (lit : Str)
    (hlit : lit.head? ≠ some 'p') :
    (m.map idClobOf).countP (fun c => c.path = lit) = 0 := by
  rw [List.countP_eq_zero]
  intro a ha hp
  obtain ⟨kv, hkv, rfl⟩ := List.mem_map.mp ha
  have hp' : (idClobOf kv).path = lit := by simpa using hp
  have h1 := idClobOf_path_head kv
  rw [hp'] at h1
  exact hlit h1

/-- C10 — Reserved buckets of the unique-id splitter: the
`invalid/id_missing.txt` object is emitted exactly once on every input
(its content is the newline-join of the missing-id record bodies, hence
empty when every record had a valid id), while the pre-record orphan
object `invalid/__.txt` is present exactly when the orphan block is
non-blank. -/
theorem id_reserved_buckets (rtag idtag : Str) (cap : Str → Option IdCaptures)
    (items : List ScannerItem) :
    ((idSplitClobs rtag idtag cap items).countP
        (fun c => c.path = "invalid/id_missing.txt".toList) = 1) ∧
    idMissingClob (idSplitParts rtag idtag cap items []).2.1 ∈
      idSplitClobs rtag idtag cap items ∧
    ((idSplitClobs rtag idtag cap items).countP
        (fun c => c.path = "invalid/__.txt".toList)
      = if isBlankStr (orphanBlockText (idSplitParts rtag idtag cap items []).2.2.1)
        then 0 else 1) := by
  refine ⟨?_, ?_, ?_⟩
  · unfold idSplitClobs
    rw [List.countP_append, List.countP_append,
      countP_map_idClobOf_eq_zero _ _ (by decide)]
    have horph : (orphanClobs (idSplitParts rtag idtag cap items []).2.2.1).countP
        (fun c => c.path = "invalid/id_missing.txt".toList) = 0 := by
      unfold orphanClobs
      split
      · rfl
      · simp [List.countP_cons]
    rw [horph]
    simp [idMissingClob, List.countP_cons]
  · unfold idSplitClobs
    simp
  · unfold idSplitClobs
    rw [List.countP_append, List.countP_append,
      countP_map_idClobOf_eq_zero _ _ (by decide)]
    have hmiss : ([idMissingClob (idSplitParts rtag idtag cap items []).2.1]).countP
        (fun c => c.path = "invalid/__.txt".toList) = 0 := by
      simp [idMissingClob, List.countP_cons]
    rw [hmiss]
    unfold orphanClobs
    split
    · rfl
    · simp [List.countP_cons]

theorem clobDecision_shape {st : GitStore} {full : Clob} {a : ClobDiff}
    (h : clobDecision st full = some (some a)) :
    a = ClobDiff.add full ∨ a = ClobDiff.update full := by
  unfold clobDecision at h
  split at h
  · split at h
    · injection h with h1; injection h1 with h2
      exact Or.inr h2.symm
    · split at h
      · exact Option.noConfusion h
      · split at h
        · injection h with h1; injection h1 with h2
          exact Or.inr h2.symm
        · injection h with h1; exact Option.noConfusion h1
  · injection h with h1; injection h1 with h2
    exact Or.inl h2.symm

theorem clobDecision_entry {st : GitStore} {full : Clob} {e : IndexEntry}
    (hidx : st.index full.path = some e) :
    clobDecision st full =
      if st.hashBlob full.content ≠ e.id then some (some (ClobDiff.update full))
      else
        match st.blobs e.id with
        | none => none
        | some bytes =>
          if bytes ≠ full.content then some (some (ClobDiff.update full))
          else some none := by
  unfold clobDecision
  rw [hidx]

theorem clobDecision_noentry {st : GitStore} {full : Clob}
    (hidx : st.index full.path = none) :
    clobDecision st full = some (some (ClobDiff.add full)) := by
  unfold clobDecision
  rw [hidx]

theorem clobDecision_update_iff {st : GitStore} {full : Clob} {e : IndexEntry}
    (hidx : st.index full.path = some e)
    (hne : clobDecision st full ≠ none) :
    clobDecision st full = some (some (ClobDiff.update full)) ↔
      (st.hashBlob full.content ≠ e.id ∨
       ∃ b, st.blobs e.id = some b ∧ b ≠ full.content) := by
  have hdec := clobDecision_entry hidx
  by_cases hh : st.hashBlob full.content ≠ e.id
  · simp only [if_pos hh] at hdec
    rw [hdec]
    exact ⟨fun _ => Or.inl hh, fun _ => rfl⟩
  · simp only [if_neg hh] at hdec
    cases hb : st.blobs e.id with
    | none =>
      simp only [hb] at hdec
      exact absurd hdec hne
    | some b =>
      simp only [hb] at hdec
      by_cases hbc : b ≠ full.content
      · simp only [if_pos hbc] at hdec
        rw [hdec]
        exact ⟨fun _ => Or.inr ⟨b, rfl, hbc⟩, fun _ => rfl⟩
      · simp only [if_neg hbc] at hdec
        rw [hdec]
        constructor
        · intro hx
          exact Option.noConfusion (Option.some.inj hx)
        · intro hx
          rcases hx with hx | ⟨b', hb', hbc'⟩
          · exact absurd hx hh
          · exact absurd (by rw [Option.some.inj hb']; exact hbc') hbc

theorem diffLoop_nil_eq (st : GitStore) (root : Str) (cs : List Str)
    (acc : List ClobDiff) : diffLoop st root [] cs acc = some (acc, cs) := rfl

theorem diffLoop_cons_eq (st : GitStore) (root : Str) (c : Clob)
    (rest : List Clob) (cs : List Str) (acc : List ClobDiff) :
    diffLoop st root (c :: rest) cs acc =
      match clobDecision st (mkFull root c) with
      | none => none
      | some none =>
        diffLoop st root rest
          (cs.filter (fun p => p ≠ toLowerStr (mkFull root c).path)) acc
      | some (some d) =>
        diffLoop st root rest
          (cs.filter (fun p => p ≠ toLowerStr (mkFull root c).path))
          (acc ++ [d]) := rfl

theorem diffLoop_decisions_ne_none {st : GitStore} {root : Str} :
    ∀ (clobs : List Clob) (cs : List Str) (acc out : List ClobDiff) (rem : List Str),
    diffLoop st root clobs cs acc = some (out, rem) →
    ∀ c ∈ clobs, clobDecision st (mkFull root c) ≠ none := by
  intro clobs
  induction clobs with
  | nil => intro cs acc out rem h c hc; exact absurd hc (List.not_mem_nil c)
  | cons c0 rest ih =>
    intro cs acc out rem h c hc
    unfold diffLoop at h
    cases hd : clobDecision st (mkFull root c0) with
    | none => rw [hd] at h; exact Option.noConfusion h
    | some d0 =>
      rw [hd] at h
      rcases List.mem_cons.mp hc with rfl | hc'
      · rw [hd]; exact fun hx => Option.noConfusion hx
      · cases d0 with
        | none => exact ih _ _ _ _ h c hc'
        | some d => exact ih _ _ _ _ h c hc'

theorem diffLoop_some {st : GitStore} {root : Str} :
    ∀ (clobs : List Clob) (cs : List Str) (acc : List ClobDiff),
    (∀ c ∈ clobs, clobDecision st (mkFull root c) ≠ none) →
    diffLoop st root clobs cs acc =
      some (acc ++ clobs.filterMap
              (fun c => (clobDecision st (mkFull root c)).bind id),
            cs.filter
              (fun p => clobs.all
                (fun c => p ≠ toLowerStr (mkFull root c).path))) := by
  intro clobs
  induction clobs with
  | nil =>
    intro cs acc _
    rw [diffLoop_nil_eq]
    simp
  | cons c0 rest ih =>
    intro cs acc h
    cases hd : clobDecision st (mkFull root c0) with
    | none => exact absurd hd (h c0 (List.mem_cons_self c0 rest))
    | some d0 =>
      have hrest : ∀ c ∈ rest, clobDecision st (mkFull root c) ≠ none :=
        fun c hc => h c (List.mem_cons_of_mem c0 hc)
      have hfilter :
          (cs.filter (fun p => p ≠ toLowerStr (mkFull root c0).path)).filter
              (fun p => rest.all (fun c => p ≠ toLowerStr (mkFull root c).path)) =
            cs.filter
              (fun p => (c0 :: rest).all
                (fun c => p ≠ toLowerStr (mkFull root c).path)) := by
        rw [List.filter_filter]
        apply List.filter_congr
        intro p _
        simp [List.all_cons, Bool.and_comm]
      cases d0 with
      | none =>
        simp only [diffLoop_cons_eq, hd]
        rw [ih _ acc hrest, hfilter]
        simp [List.filterMap_cons, hd]
      | some d =>
        simp only [diffLoop_cons_eq, hd]
        rw [ih _ (acc ++ [d]) hrest, hfilter]
        simp [List.filterMap_cons, hd]

theorem diffClobsAtPath_eq {st : GitStore} {root : Str} {clobs : List Clob}
    {out : List ClobDiff} (h : diffClobsAtPath st root clobs = some out) :
    (∀ c ∈ clobs, clobDecision st (mkFull root c) ≠ none) ∧
    out = clobs.filterMap (fun c => (clobDecision st (mkFull root c)).bind id)
      ++ ((buildClobset st.statuses []).filter
            (fun p => clobs.all
              (fun c => p ≠ toLowerStr (mkFull root c).path))).map
          ClobDiff.delete := by
  unfold diffClobsAtPath at h
  cases hl : diffLoop st root clobs (buildClobset st.statuses []) [] with
  | none =>
    simp only [hl] at h
    exact Option.noConfusion h
  | some pr =>
    obtain ⟨acc, rem⟩ := pr
    simp only [hl] at h
    have hne := diffLoop_decisions_ne_none clobs _ _ _ _ hl
    rw [diffLoop_some clobs _ [] hne] at hl
    injection hl with h2
    injection h2 with h3 h4
    refine ⟨hne, ?_⟩
    have hout : out = acc ++ List.map ClobDiff.delete rem := (Option.some.inj h).symm
    rw [hout, ← h3, ← h4]
    simp

/-- Extract the delete paths of a change list, in order. -/
def deletePaths (out : List ClobDiff) : List Str :=
  out.filterMap (fun d => match d with
    | ClobDiff.delete p => some p
    | _ => none)

/-- C2 — Diff engine decision rule: when `diff_clobs_at_path` succeeds on a
root and a clob stream, then (1) for every clob whose full path has an
index entry, an `Update` for it is emitted iff the content hash differs
from the entry's id or the stored blob's bytes differ from the proposed
bytes; (2) for every clob without an index entry at its full path an `Add`
is emitted; and (3) the emitted `Delete` paths are exactly the tracked
lower-cased `.txt` paths under the root (as returned by the status query,
excluding index-deleted entries) that no clob claimed, where claiming
compares lower-cased paths (case-insensitively). -/
theorem diff_engine_decision_rule (st : GitStore) (root : Str)
    (clobs : List Clob) (out : List ClobDiff)
    (hout : diffClobsAtPath st root clobs = some out) :
    (∀ c ∈ clobs, ∀ e, st.index (mkFull root c).path = some e →
       (ClobDiff.update (mkFull root c) ∈ out ↔
         (st.hashBlob (mkFull root c).content ≠ e.id ∨
          ∃ b, st.blobs e.id = some b ∧ b ≠ (mkFull root c).content))) ∧
    (∀ c ∈ clobs, st.index (mkFull root c).path = none →
       ClobDiff.add (mkFull root c) ∈ out) ∧
    deletePaths out
      = (buildClobset st.statuses []).filter
          (fun p => clobs.all (fun c => p ≠ toLowerStr (mkFull root c).path)) := by
  obtain ⟨hne, hval⟩ := diffClobsAtPath_eq hout
  subst hval
  refine ⟨?_, ?_, ?_⟩
  · intro c hc e he
    rw [← clobDecision_update_iff he (hne c hc)]
    constructor
    · intro hmem
      rcases List.mem_append.mp hmem with hmem | hmem
      · obtain ⟨c', hc', hdec⟩ := List.mem_filterMap.mp hmem
        cases hd' : clobDecision st (mkFull root c') with
        | none => exact absurd hd' (hne c' hc')
        | some d0 =>
          rw [hd'] at hdec
          cases d0 with
          | none => exact Option.noConfusion hdec
          | some d =>
            have hd : d = ClobDiff.update (mkFull root c) := Option.some.inj hdec
            subst hd
            rcases clobDecision_shape hd' with hsh | hsh
            · exact ClobDiff.noConfusion hsh
            · have hfc : mkFull root c = mkFull root c' := ClobDiff.update.inj hsh
              rw [hfc] at hd' ⊢
              exact hd'
      · obtain ⟨p, hp, hdp⟩ := List.mem_map.mp hmem
        exact ClobDiff.noConfusion hdp
    · intro hdec
      apply List.mem_append_left
      exact List.mem_filterMap.mpr ⟨c, hc, by rw [hdec]; rfl⟩
  · intro c hc he
    apply List.mem_append_left
    apply List.mem_filterMap.mpr
    refine ⟨c, hc, ?_⟩
    have : clobDecision st (mkFull root c) = some (some (ClobDiff.add (mkFull root c))) := by
      unfold clobDecision
      rw [he]
    rw [this]
    rfl
  · unfold deletePaths
    rw [List.filterMap_append]
    have hfm : (clobs.filterMap
        (fun c => (clobDecision st (mkFull root c)).bind id)).filterMap
          (fun d => match d with
            | ClobDiff.delete p => some p
            | _ => none) = [] := by
      rw [List.filterMap_eq_nil_iff]
      intro d hd
      obtain ⟨c', hc', hdec⟩ := List.mem_filterMap.mp hd
      cases hd' : clobDecision st (mkFull root c') with
      | none => exact absurd hd' (hne c' hc')
      | some d0 =>
        rw [hd'] at hdec
        cases d0 with
        | none => exact Option.noConfusion hdec
        | some a =>
          have ha : a = d := Option.some.inj hdec
          subst ha
          rcases clobDecision_shape hd' with hsh | hsh <;> rw [hsh]
    rw [hfm, List.nil_append, List.filterMap_map]
    show List.filterMap some _ = _
    exact List.filterMap_some _

/-- C3 — Diff idempotence: when the tracked tree and index already match
the incoming clobs exactly (each clob's full path has an index entry whose
id is the hash of the clob's bytes and whose stored blob equals those
bytes — the state left behind by applying the engine's own change-set) and
every tracked path key under the root is claimed by some clob
(case-insensitively), re-running `diff_clobs_at_path` yields the empty
change-set. -/
theorem diff_idempotent (st : GitStore) (root : Str) (clobs : List Clob)
    (hmatch : ∀ c ∈ clobs, ∃ e, st.index (mkFull root c).path = some e ∧
       e.id = st.hashBlob (mkFull root c).content ∧
       st.blobs e.id = some (mkFull root c).content)
    (hcover : ∀ p ∈ buildClobset st.statuses [],
       ∃ c ∈ clobs, toLowerStr (mkFull root c).path = p) :
    diffClobsAtPath st root clobs = some [] := by
  have hdec : ∀ c ∈ clobs, clobDecision st (mkFull root c) = some none := by
    intro c hc
    obtain ⟨e, he, hid, hb⟩ := hmatch c hc
    have hd := clobDecision_entry he
    have hhash : ¬st.hashBlob (mkFull root c).content ≠ e.id := by simp [hid]
    simp only [if_neg hhash, hb] at hd
    simpa using hd
  have hne : ∀ c ∈ clobs, clobDecision st (mkFull root c) ≠ none := by
    intro c hc
    rw [hdec c hc]
    exact fun hx => Option.noConfusion hx
  unfold diffClobsAtPath
  rw [diffLoop_some clobs _ [] hne]
  have hfm : clobs.filterMap
      (fun c => (clobDecision st (mkFull root c)).bind id) = [] := by
    rw [List.filterMap_eq_nil_iff]
    intro c hc
    rw [hdec c hc]
    rfl
  have hfil : (buildClobset st.statuses []).filter
      (fun p => clobs.all (fun c => p ≠ toLowerStr (mkFull root c).path)) = [] := by
    rw [List.filter_eq_nil_iff]
    intro p hp
    obtain ⟨c, hc, hcp⟩ := hcover p hp
    simp only [List.all_eq_true, decide_not]
    intro hall
    have hcdec := hall c hc
    simp at hcdec
    exact hcdec hcp.symm
  rw [hfm, hfil]
  simp

/-- A concrete store used by the diff-engine witnesses: one tracked file
`r/a.txt` whose index entry and blob match content `"x"`. -/
def demoStore : GitStore :=
  { statuses := [{ path := "r/a.txt".toList, indexDeleted := false }]
    index := fun p => if p = "r/a.txt".toList then some { id := 7 } else none
    blobs := fun n => if n = 7 then some "x".toList else none
    hashBlob := fun b => if b = "x".toList then 7 else 0 }

/-- Witness for C3: the matching store and a matching clob stream yield the
empty change-set via `diff_idempotent`, whose hypotheses are discharged at
this concrete input. -/
theorem diff_idempotent_witness :
    diffClobsAtPath demoStore "r".toList
      [{ path := "a.txt".toList, content := "x".toList }] = some [] := by
  apply diff_idempotent
  · intro c hc
    rcases List.mem_singleton.mp hc with rfl
    exact ⟨{ id := 7 }, by decide, by decide, by decide⟩
  · intro p hp
    have hset : buildClobset demoStore.statuses [] = ["r/a.txt".toList] := by decide
    rw [hset] at hp
    rcases List.mem_singleton.mp hp with rfl
    exact ⟨{ path := "a.txt".toList, content := "x".toList }, by decide, by decide⟩

/-- A second concrete store for the C2 witness: tracked files `r/a.txt`
(matching content `"x"`) and `r/b.txt` (which no clob claims). -/
def demoStore2 : GitStore :=
  { statuses := [{ path := "r/a.txt".toList, indexDeleted := false },
                 { path := "r/B.txt".toList, indexDeleted := false }]
    index := fun p => if p = "r/a.txt".toList then some { id := 7 } else none
    blobs := fun n => if n = 7 then some "x".toList else none
    hashBlob := fun b => if b = "x".toList then 7 else 0 }

/-- Witness for C2: at a concrete store and clob stream (one updated clob
at a tracked path, one new clob), the decision rule instantiates — the
update membership holds because the hash differs, the add is emitted, and
the delete list is exactly the unclaimed tracked key `r/b.txt`
(lower-cased from `r/B.txt`). -/
theorem diff_engine_decision_rule_witness :
    (ClobDiff.update (mkFull "r".toList
        { path := "a.txt".toList, content := "y".toList }) ∈
      [ClobDiff.update { path := "r/a.txt".toList, content := "y".toList },
       ClobDiff.add { path := "r/c.txt".toList, content := "z".toList },
       ClobDiff.delete "r/b.txt".toList] ↔
      (demoStore2.hashBlob "y".toList ≠ 7 ∨
       ∃ b, demoStore2.blobs 7 = some b ∧ b ≠ "y".toList)) ∧
    ClobDiff.add (mkFull "r".toList
        { path := "c.txt".toList, content := "z".toList }) ∈
      [ClobDiff.update { path := "r/a.txt".toList, content := "y".toList },
       ClobDiff.add { path := "r/c.txt".toList, content := "z".toList },
       ClobDiff.delete "r/b.txt".toList] := by
  have hout : diffClobsAtPath demoStore2 "r".toList
      [{ path := "a.txt".toList, content := "y".toList },
       { path := "c.txt".toList, content := "z".toList }] =
      some [ClobDiff.update { path := "r/a.txt".toList, content := "y".toList },
            ClobDiff.add { path := "r/c.txt".toList, content := "z".toList },
            ClobDiff.delete "r/b.txt".toList] := by decide
  have h := diff_engine_decision_rule demoStore2 "r".toList _ _ hout
  constructor
  · exact h.1 { path := "a.txt".toList, content := "y".toList } (by decide)
      { id := 7 } (by decide)
  · exact h.2.1 { path := "c.txt".toList, content := "z".toList } (by decide)
      (by decide)

/-- C4 — Scanner boundary emission order: at a line whose tag equals the
record tag (with an exhausted queue), the scanner emits, in order,
`RecordEnd` for the previously open record (body = the exact source
substring from the previous boundary up to this line, trailing blank lines
trimmed) if one existed, then `RecordBegin`, then `Tagged` for the line
itself — all three reporting the triggering line; and at end of input an
open record yields exactly one final trimmed `RecordEnd`, after which the
stream ends. -/
theorem scanner_boundary_emission (s : Scanner) :
    (s.queue = [] → s.text ≠ [] →
      ∀ tag txt,
        parsedLineFrom (dropTrailingCRLF (s.text.take (lineEndOf s.text))) =
          ParsedLine.tagged tag txt →
        tag = s.record_tag →
        ((∀ st, s.start = some st → s.text <:+ st →
            ∃ pre, st = pre ++ s.text ∧
              s.run =
                (s.currentLine, Token.recordEnd (trimTrailingEmptyLines pre)) ::
                (s.currentLine, Token.recordBegin) ::
                (s.currentLine, Token.tagged tag txt) ::
                ({ s.afterLine with queue := [], start := some s.text } : Scanner).run) ∧
         (s.start = none →
            s.run =
              (s.currentLine, Token.recordBegin) ::
              (s.currentLine, Token.tagged tag txt) ::
              ({ s.afterLine with queue := [], start := some s.text } : Scanner).run))) ∧
    (s.text = [] → s.queue = [] →
      ((∀ st, s.start = some st →
          s.run = [(s.last_line, Token.recordEnd (trimTrailingEmptyLines st))]) ∧
       (s.start = none → s.run = []))) := by
  constructor
  · intro hq htne tag txt hp htag
    have hie : s.text.isEmpty = false := by
      cases hc : s.text with
      | nil => exact absurd hc htne
      | cons a l => rfl
    constructor
    · intro st hs hsuf
      obtain ⟨t, ht⟩ := hsuf
      refine ⟨t, ht.symm, ?_⟩
      have hpre : st.take (st.length - s.text.length) = t := by
        rw [← ht]
        simp
      have h1 : s.next = some
          ((s.currentLine,
            Token.recordEnd
              (trimTrailingEmptyLines (st.take (st.length - s.text.length)))),
           { s.afterLine with
               queue := [Token.recordBegin, Token.tagged tag txt]
               start := some s.text }) := by
        unfold Scanner.next
        simp only [hq, hie, hp, htag, hs]
        simp
      rw [hpre] at h1
      have h2 : ({ s.afterLine with
          queue := [Token.recordBegin, Token.tagged tag txt]
          start := some s.text } : Scanner).next = some
            ((s.currentLine, Token.recordBegin),
             { s.afterLine with
                 queue := [Token.tagged tag txt]
                 start := some s.text }) := by
        unfold Scanner.next
        simp [Scanner.afterLine]
      have h3 : ({ s.afterLine with
          queue := [Token.tagged tag txt]
          start := some s.text } : Scanner).next = some
            ((s.currentLine, Token.tagged tag txt),
             { s.afterLine with queue := [], start := some s.text }) := by
        unfold Scanner.next
        simp [Scanner.afterLine]
      rw [Scanner.run_some h1, Scanner.run_some h2, Scanner.run_some h3]
    · intro hs
      have h1 : s.next = some
          ((s.currentLine, Token.recordBegin),
           { s.afterLine with
               queue := [Token.tagged tag txt]
               start := some s.text }) := by
        unfold Scanner.next
        simp only [hq, hie, hp, htag, hs]
        simp
      have h3 : ({ s.afterLine with
          queue := [Token.tagged tag txt]
          start := some s.text } : Scanner).next = some
            ((s.currentLine, Token.tagged tag txt),
             { s.afterLine with queue := [], start := some s.text }) := by
        unfold Scanner.next
        simp [Scanner.afterLine]
      rw [Scanner.run_some h1, Scanner.run_some h3]
  · intro hte hq
    constructor
    · intro st hs
      have h1 : s.next = some
          ((s.last_line, Token.recordEnd (trimTrailingEmptyLines st)),
           { s with start := none }) := by
        unfold Scanner.next
        rw [hq, hs, hte]
        rfl
      have h2 : ({ s with start := none } : Scanner).next = none := by
        unfold Scanner.next
        rw [hq]
        simp [hte]
      rw [Scanner.run_some h1, Scanner.run_none h2]
    · intro hs
      have h1 : s.next = none := by
        unfold Scanner.next
        rw [hq, hs, hte]
        rfl
      exact Scanner.run_none h1

/-- A concrete mid-scan scanner state used by the C4 witness: the second
record's boundary line is at the front, with the first record still
open. -/
def demoBoundaryScanner : Scanner :=
  { text := "\\lx b\n".toList
    next_line_i := 2
    record_tag := "\\lx".toList
    queue := []
    last_line := { line := 1, text := "x".toList }
    start := some "\\lx a\n\\lx b\n".toList }

/-- Witness for C4: at the concrete boundary state the three tokens are
emitted in the stated order with the triggering line, and the body is the
exact substring before the boundary. -/
theorem scanner_boundary_emission_witness :
    ("\\lx b\n".toList <:+ "\\lx a\n\\lx b\n".toList) ∧
    (∃ pre, "\\lx a\n\\lx b\n".toList = pre ++ "\\lx b\n".toList ∧
      demoBoundaryScanner.run =
        (demoBoundaryScanner.currentLine,
          Token.recordEnd (trimTrailingEmptyLines pre)) ::
        (demoBoundaryScanner.currentLine, Token.recordBegin) ::
        (demoBoundaryScanner.currentLine,
          Token.tagged "\\lx".toList " b".toList) ::
        ({ demoBoundaryScanner.afterLine with
            queue := []
            start := some demoBoundaryScanner.text } : Scanner).run) :=
  ⟨by decide,
   ((scanner_boundary_emission demoBoundaryScanner).1 rfl (by decide)
      "\\lx".toList " b".toList (by decide) rfl).1
     "\\lx a\n\\lx b\n".toList rfl (by decide)⟩

/-- The record bodies carried by a token stream, in emission order. -/
def recordBodies (items : List ScannerItem) : List Str :=
  items.filterMap (fun it => match it.2 with
    | Token.recordEnd b => some b
    | _ => none)

/-- The multiset of values stored in a multimap, one image per stored
value, in map order. -/
def mmValuesBy {α β γ : Type} (f : β → γ) (m : MultiMap α β) : List γ :=
  (m.map (fun kv => kv.2.map f)).flatten

theorem mmInsert_valuesBy_perm {α β γ : Type} [DecidableEq α] (f : β → γ)
    (m : MultiMap α β) (k : α) (v : β) :
    List.Perm (mmValuesBy f (mmInsert m k v)) (mmValuesBy f m ++ [f v]) := by
  induction m with
  | nil => simp [mmInsert, mmValuesBy]
  | cons kv rest ih =>
    obtain ⟨k', vs⟩ := kv
    by_cases hk : k' = k
    · simp only [mmInsert, if_pos hk, mmValuesBy, List.map_cons, List.flatten_cons,
        List.map_append]
      rw [List.append_assoc, List.append_assoc]
      exact List.Perm.append_left (vs.map f)
        (by simpa using
          (@List.perm_append_comm _ [f v] ((rest.map (fun kv => kv.2.map f)).flatten)))
    · simp only [mmInsert, if_neg hk, mmValuesBy, List.map_cons, List.flatten_cons]
      rw [List.append_assoc]
      exact List.Perm.append_left (vs.map f) ih

/-- No `RecordEnd` occurs before the first `RecordBegin` of the stream (the
invariant that lets the splitters' initial scan drop no record body). -/
def noREpre : List ScannerItem → Prop
  | [] => True
  | (_, Token.recordBegin) :: _ => True
  | (_, Token.recordEnd _) :: _ => False
  | _ :: rest => noREpre rest

theorem run_noREpre : ∀ (n : Nat) (s : Scanner), measureS s ≤ n →
    s.queue = [] → s.start = none → noREpre s.run := by
  intro n
  induction n with
  | zero =>
    intro s hm hq hs
    have htnil : s.text = [] := by
      unfold measureS at hm
      have : s.text.length = 0 := by omega
      exact List.length_eq_zero.mp this
    have hnext : s.next = none := by
      unfold Scanner.next
      rw [hq, hs, htnil]
      rfl
    rw [Scanner.run_none hnext]
    trivial
  | succ k ih =>
    intro s hm hq hs
    by_cases htnil : s.text = []
    · have hnext : s.next = none := by
        unfold Scanner.next
        rw [hq, hs, htnil]
        rfl
      rw [Scanner.run_none hnext]
      trivial
    · have hie : s.text.isEmpty = false := by
        cases hc : s.text with
        | nil => exact absurd hc htnil
        | cons a l => rfl
      have hafter : measureS s.afterLine ≤ k := by
        have hlt : measureS s.afterLine < measureS s := by
          have h1 : 1 ≤ lineEndOf s.text := lineEndOf_pos s.text htnil
          have hlen : 1 ≤ s.text.length := by
            cases hc : s.text with
            | nil => exact absurd hc htnil
            | cons a l => simp
          simp only [measureS, Scanner.afterLine, hq, List.length_drop,
            List.length_nil]
          omega
        omega
      have haq : s.afterLine.queue = [] := hq
      have has : s.afterLine.start = none := hs
      cases hp : parsedLineFrom (dropTrailingCRLF (s.text.take (lineEndOf s.text))) with
      | tagged tag txt =>
        by_cases htag : tag = s.record_tag
        · have hnext : s.next = some
              ((s.currentLine, Token.recordBegin),
               { s.afterLine with
                   queue := [Token.tagged tag txt]
                   start := some s.text }) := by
            unfold Scanner.next
            simp only [hq, hie, hp, htag, hs]
            simp
          rw [Scanner.run_some hnext]
          trivial
        · have hnext : s.next = some
              ((s.currentLine, Token.tagged tag txt), s.afterLine) := by
            unfold Scanner.next
            simp only [hq, hie, hp, hs]
            simp [htag]
          rw [Scanner.run_some hnext]
          exact ih s.afterLine hafter haq has
      | untagged txt =>
        have hnext : s.next = some
            ((s.currentLine, Token.untagged txt), s.afterLine) := by
          unfold Scanner.next
          simp only [hq, hie, hp, hs]
          simp
        rw [Scanner.run_some hnext]
        exact ih s.afterLine hafter haq has
      | blank =>
        have hnext : s.next = some
            ((s.currentLine, Token.blank), s.afterLine) := by
          unfold Scanner.next
          simp only [hq, hie, hp, hs]
          simp
        rw [Scanner.run_some hnext]
        exact ih s.afterLine hafter haq has

theorem preludeScan_bodies : ∀ (items : List ScannerItem) (orphans : List Str),
    noREpre items →
    recordBodies (preludeScan orphans items).2.2 = recordBodies items := by
  intro items
  induction items with
  | nil => intro orphans _; rfl
  | cons it rest ih =>
    obtain ⟨ln, tok⟩ := it
    intro orphans h
    cases tok with
    | recordBegin =>
      simp [preludeScan, recordBodies, List.filterMap_cons]
    | recordEnd b => exact h.elim
    | tagged a b =>
      have h' : noREpre rest := h
      simp only [preludeScan]
      rw [ih (orphans ++ [ln.text]) h']
      simp [recordBodies, List.filterMap_cons]
    | untagged a =>
      have h' : noREpre rest := h
      simp only [preludeScan]
      rw [ih (orphans ++ [ln.text]) h']
      simp [recordBodies, List.filterMap_cons]
    | blank =>
      have h' : noREpre rest := h
      simp only [preludeScan]
      rw [ih _ h']
      simp [recordBodies, List.filterMap_cons]

theorem recordLoop_values_perm (rtag : Str) :
    ∀ (items : List ScannerItem) (label : Str) (m : MultiMap Str Str),
    List.Perm (mmValuesBy (fun b => b) (recordLoop rtag items label m).1)
      (mmValuesBy (fun b => b) m ++ recordBodies items) := by
  intro items
  induction items with
  | nil => intro label m; simp [recordLoop, recordBodies]
  | cons it rest ih =>
    obtain ⟨ln, tok⟩ := it
    intro label m
    cases tok with
    | tagged tag txt =>
      by_cases htag : tag = rtag
      · simp only [recordLoop, if_pos htag]
        simpa [recordBodies, List.filterMap_cons] using
          ih (sanitize_label (trimStr (trimStr txt))) m
      · simp only [recordLoop, if_neg htag]
        simpa [recordBodies, List.filterMap_cons] using ih label m
    | untagged a =>
      simp only [recordLoop]
      simpa [recordBodies, List.filterMap_cons] using ih label m
    | recordBegin =>
      simp only [recordLoop]
      simpa [recordBodies, List.filterMap_cons] using ih label m
    | blank =>
      simp only [recordLoop]
      simpa [recordBodies, List.filterMap_cons] using ih label m
    | recordEnd body =>
      simp only [recordLoop]
      have h1 := ih [] (mmInsert m label body)
      have h2 := mmInsert_valuesBy_perm (fun b => b) m label body
      have h3 : List.Perm
          (mmValuesBy (fun b => b) (recordLoop rtag rest [] (mmInsert m label body)).1)
          ((mmValuesBy (fun b => b) m ++ [body]) ++ recordBodies rest) :=
        h1.trans (h2.append_right (recordBodies rest))
      have h4 : recordBodies ((ln, Token.recordEnd body) :: rest) =
          body :: recordBodies rest := by
        simp [recordBodies, List.filterMap_cons]
      rw [h4]
      simpa [List.append_assoc] using h3

theorem idLoop_values_perm (rtag idtag : Str) (cap : Str → Option IdCaptures) :
    ∀ (items : List ScannerItem) (rstart ridline : Line) (rid : Option ID)
      (m : MultiMap ID IdRecord) (missing : List Str),
    List.Perm
      (mmValuesBy (fun r : IdRecord => r.2.2)
          (idLoop rtag idtag cap items rstart ridline rid m missing).1
        ++ (idLoop rtag idtag cap items rstart ridline rid m missing).2.1)
      (mmValuesBy (fun r : IdRecord => r.2.2) m ++ missing ++ recordBodies items) := by
  intro items
  induction items with
  | nil => intro rstart ridline rid m missing; simp [idLoop, recordBodies]
  | cons it rest ih =>
    obtain ⟨ln, tok⟩ := it
    intro rstart ridline rid m missing
    cases tok with
    | tagged tag txt =>
      by_cases hr : tag = rtag
      · simp only [idLoop, if_pos hr]
        simpa [recordBodies, List.filterMap_cons] using ih ln ridline rid m missing
      · by_cases hi : tag = idtag
        · simp only [idLoop, if_neg hr, if_pos hi]
          cases hext : extract_id cap (trimStr txt) with
          | some i =>
            cases rid with
            | none =>
              simp only []
              simpa [recordBodies, List.filterMap_cons] using
                ih rstart ln (some i) m missing
            | some j =>
              simp only []
              simpa [recordBodies, List.filterMap_cons] using
                ih rstart ridline (some j) m missing
          | none =>
            simpa [recordBodies, List.filterMap_cons] using
              ih rstart ridline rid m missing
        · simp only [idLoop, if_neg hr, if_neg hi]
          simpa [recordBodies, List.filterMap_cons] using
            ih rstart ridline rid m missing
    | untagged a =>
      simp only [idLoop]
      simpa [recordBodies, List.filterMap_cons] using ih rstart ridline rid m missing
    | recordBegin =>
      simp only [idLoop]
      simpa [recordBodies, List.filterMap_cons] using ih rstart ridline rid m missing
    | blank =>
      simp only [idLoop]
      simpa [recordBodies, List.filterMap_cons] using ih rstart ridline rid m missing
    | recordEnd body =>
      have h4 : recordBodies ((ln, Token.recordEnd body) :: rest) =
          body :: recordBodies rest := by
        simp [recordBodies, List.filterMap_cons]
      cases rid with
      | some i =>
        simp only [idLoop]
        have h1 := ih rstart ridline none (mmInsert m i (rstart, ridline, body)) missing
        have h2 := mmInsert_valuesBy_perm (fun r : IdRecord => r.2.2) m i
          (rstart, ridline, body)
        rw [h4]
        refine h1.trans ?_
        have h3 : List.Perm
            (mmValuesBy (fun r : IdRecord => r.2.2)
                (mmInsert m i (rstart, ridline, body)) ++ missing)
            (mmValuesBy (fun r : IdRecord => r.2.2) m ++ missing ++ [body]) := by
          refine (h2.append_right missing).trans ?_
          rw [List.append_assoc, List.append_assoc]
          exact List.Perm.append_left _ (@List.perm_append_comm _ [body] missing)
        have h5 := h3.append_right (recordBodies rest)
        simpa [List.append_assoc] using h5
      | none =>
        simp only [idLoop]
        have h1 := ih rstart ridline none m (missing ++ [body])
        rw [h4]
        simpa [List.append_assoc] using h1

/-- C1 — Content preservation: for every input text and tag configuration,
the record bodies stored across the splitter's content groups are exactly
the record bodies of the scanned input, each occurring exactly once (a
permutation), and the emitted content objects are precisely those groups
(one object per group, its content the newline-join of the group's bodies)
plus the reserved buckets.  This holds for both the label-grouped and the
unique-id-grouped variant (where the missing-id bucket accounts for the
bodies without an id). -/
theorem content_preservation (text rtag idtag : Str)
    (cap : Str → Option IdCaptures) :
    (List.Perm
      (mmValuesBy (fun b => b)
        (recordSplitParts rtag (Scanner.fromText text rtag).run []).1)
      (recordBodies (Scanner.fromText text rtag).run) ∧
     recordSplitClobs rtag (Scanner.fromText text rtag).run =
       (recordSplitParts rtag (Scanner.fromText text rtag).run []).1.map
           recordClobOf
         ++ orphanClobs
             (recordSplitParts rtag (Scanner.fromText text rtag).run []).2.1) ∧
    (List.Perm
      (mmValuesBy (fun r : IdRecord => r.2.2)
          (idSplitParts rtag idtag cap (Scanner.fromText text rtag).run []).1
        ++ (idSplitParts rtag idtag cap (Scanner.fromText text rtag).run []).2.1)
      (recordBodies (Scanner.fromText text rtag).run) ∧
     idSplitClobs rtag idtag cap (Scanner.fromText text rtag).run =
       (idSplitParts rtag idtag cap (Scanner.fromText text rtag).run []).1.map
           idClobOf
         ++ [idMissingClob
              (idSplitParts rtag idtag cap (Scanner.fromText text rtag).run []).2.1]
         ++ orphanClobs
             (idSplitParts rtag idtag cap
               (Scanner.fromText text rtag).run []).2.2.1) := by
  have hnore : noREpre (Scanner.fromText text rtag).run :=
    run_noREpre (measureS (Scanner.fromText text rtag)) _ (le_refl _) rfl rfl
  have hbodies := preludeScan_bodies (Scanner.fromText text rtag).run [] hnore
  refine ⟨⟨?_, rfl⟩, ⟨?_, rfl⟩⟩
  · have h := recordLoop_values_perm rtag
      ((preludeScan [] (Scanner.fromText text rtag).run).2.2) [] []
    rw [hbodies] at h
    simpa [recordSplitParts, mmValuesBy] using h
  · have h := idLoop_values_perm rtag idtag cap
      ((preludeScan [] (Scanner.fromText text rtag).run).2.2)
      { line := 0, text := [] } { line := 0, text := [] } none [] []
    rw [hbodies] at h
    simpa [idSplitParts, mmValuesBy] using h

/-- The line number an item of the token stream is reported at. -/
def itemLine (it : ScannerItem) : Nat := it.1.line

/-- Non-decreasing source-line order of a diagnostic list. -/
abbrev IssuesSortedByLine (l : List ToolboxFileIssue) : Prop :=
  List.Pairwise (fun a b => a.line ≤ b.line) l

/-- The issues contributed by `record_splitter::split` itself (prelude and
main loop), without the dictionary's pre-existing issues. -/
def recordSplitNewIssues (rtag : Str) (items : List ScannerItem) :
    List ToolboxFileIssue :=
  (recordSplitParts rtag items []).2.2

theorem mem_insertByLine (i : ToolboxFileIssue) :
    ∀ (l : List ToolboxFileIssue) (x : ToolboxFileIssue),
      x ∈ insertByLine i l ↔ x = i ∨ x ∈ l := by
  intro l
  induction l with
  | nil => intro x; simp [insertByLine]
  | cons j rest ih =>
    intro x
    unfold insertByLine
    by_cases hij : i.line ≤ j.line
    · rw [if_pos hij]
      constructor
      · intro hx
        rcases List.mem_cons.mp hx with rfl | hx'
        · exact Or.inl rfl
        · exact Or.inr hx'
      · intro hx
        rcases hx with rfl | hx'
        · exact List.mem_cons_self _ _
        · exact List.mem_cons_of_mem _ hx'
    · rw [if_neg hij]
      constructor
      · intro hx
        rcases List.mem_cons.mp hx with rfl | hx'
        · exact Or.inr (List.mem_cons_self _ _)
        · rcases (ih x).mp hx' with rfl | hx''
          · exact Or.inl rfl
          · exact Or.inr (List.mem_cons_of_mem _ hx'')
      · intro hx
        rcases hx with rfl | hx'
        · exact List.mem_cons_of_mem _ ((ih x).mpr (Or.inl rfl))
        · rcases List.mem_cons.mp hx' with rfl | hx''
          · exact List.mem_cons_self _ _
          · exact List.mem_cons_of_mem _ ((ih x).mpr (Or.inr hx''))

theorem insertByLine_pairwise (i : ToolboxFileIssue) :
    ∀ (l : List ToolboxFileIssue),
      List.Pairwise (fun a b => a.line ≤ b.line) l →
      List.Pairwise (fun a b => a.line ≤ b.line) (insertByLine i l) := by
  intro l
  induction l with
  | nil => intro _; simp [insertByLine]
  | cons j rest ih =>
    intro h
    rw [List.pairwise_cons] at h
    obtain ⟨hj, hrest⟩ := h
    unfold insertByLine
    by_cases hij : i.line ≤ j.line
    · rw [if_pos hij, List.pairwise_cons]
      constructor
      · intro b hb
        rcases List.mem_cons.mp hb with rfl | hb'
        · exact hij
        · exact le_trans hij (hj b hb')
      · exact List.pairwise_cons.mpr ⟨hj, hrest⟩
    · rw [if_neg hij, List.pairwise_cons]
      constructor
      · intro b hb
        rcases (mem_insertByLine i rest b).mp hb with rfl | hb'
        · omega
        · exact hj b hb'
      · exact ih hrest

theorem sortByLine_sorted :
    ∀ (l : List ToolboxFileIssue),
      List.Pairwise (fun a b => a.line ≤ b.line) (sortByLine l) := by
  intro l
  induction l with
  | nil => simp [sortByLine]
  | cons i rest ih => exact insertByLine_pairwise i _ ih

theorem insertByLine_perm (i : ToolboxFileIssue) :
    ∀ (l : List ToolboxFileIssue), List.Perm (insertByLine i l) (i :: l) := by
  intro l
  induction l with
  | nil => simp [insertByLine]
  | cons j rest ih =>
    unfold insertByLine
    by_cases hij : i.line ≤ j.line
    · rw [if_pos hij]
    · rw [if_neg hij]
      exact (List.Perm.cons j ih).trans (List.Perm.swap i j rest)

theorem sortByLine_perm :
    ∀ (l : List ToolboxFileIssue), List.Perm (sortByLine l) l := by
  intro l
  induction l with
  | nil => exact List.Perm.refl []
  | cons i rest ih =>
    exact (insertByLine_perm i (sortByLine rest)).trans (List.Perm.cons i ih)

theorem Scanner.next_line_fields (s s' : Scanner) (ln : Line) (t : Token)
    (h : s.next = some ((ln, t), s'))
    (h2 : s.last_line.line ≤ s.next_line_i) :
    s'.last_line = ln ∧ s.last_line.line ≤ ln.line ∧
    s'.last_line.line ≤ s'.next_line_i := by
  unfold Scanner.next at h
  split at h
  next t0 qrest hq =>
    injection h with h1
    injection h1 with hit hst
    subst hst
    injection hit with hl ht
    subst hl
    exact ⟨rfl, le_refl _, h2⟩
  next hq =>
    split at h
    next he =>
      split at h
      next st hs =>
        injection h with h1
        injection h1 with hit hst
        subst hst
        injection hit with hl ht
        subst hl
        exact ⟨rfl, le_refl _, h2⟩
      next hs => exact Option.noConfusion h
    next he =>
      split at h
      next tag txt hp =>
        split at h
        next htag =>
          split at h
          next st hs =>
            injection h with h1
            injection h1 with hit hst
            subst hst
            injection hit with hl ht
            subst hl
            refine ⟨rfl, h2, ?_⟩
            simp [Scanner.afterLine, Scanner.currentLine]
          next hs =>
            injection h with h1
            injection h1 with hit hst
            subst hst
            injection hit with hl ht
            subst hl
            refine ⟨rfl, h2, ?_⟩
            simp [Scanner.afterLine, Scanner.currentLine]
        next htag =>
          injection h with h1
          injection h1 with hit hst
          subst hst
          injection hit with hl ht
          subst hl
          refine ⟨rfl, h2, ?_⟩
          simp [Scanner.afterLine, Scanner.currentLine]
      next txt hp =>
        injection h with h1
        injection h1 with hit hst
        subst hst
        injection hit with hl ht
        subst hl
        refine ⟨rfl, h2, ?_⟩
        simp [Scanner.afterLine, Scanner.currentLine]
      next hp =>
        injection h with h1
        injection h1 with hit hst
        subst hst
        injection hit with hl ht
        subst hl
        refine ⟨rfl, h2, ?_⟩
        simp [Scanner.afterLine, Scanner.currentLine]

theorem run_lines_pairwise : ∀ (n : Nat) (s : Scanner), measureS s ≤ n →
    s.last_line.line ≤ s.next_line_i →
    (∀ it ∈ s.run, s.last_line.line ≤ itemLine it) ∧
    List.Pairwise (fun a b => itemLine a ≤ itemLine b) s.run := by
  intro n
  induction n with
  | zero =>
    intro s hm h2
    cases hnext : s.next with
    | none =>
      rw [Scanner.run_none hnext]
      simp
    | some p =>
      obtain ⟨⟨ln, t⟩, s'⟩ := p
      have := Scanner.next_measure s s' (ln, t) hnext
      omega
  | succ k ih =>
    intro s hm h2
    cases hnext : s.next with
    | none =>
      rw [Scanner.run_none hnext]
      simp
    | some p =>
      obtain ⟨⟨ln, t⟩, s'⟩ := p
      have hf := Scanner.next_line_fields s s' ln t hnext h2
      have hm' : measureS s' ≤ k := by
        have := Scanner.next_measure s s' (ln, t) hnext
        omega
      have IH := ih s' hm' hf.2.2
      rw [Scanner.run_some hnext]
      constructor
      · intro it hit
        rcases List.mem_cons.mp hit with rfl | hit'
        · exact hf.2.1
        · refine le_trans hf.2.1 ?_
          have := IH.1 it hit'
          rw [hf.1] at this
          exact this
      · rw [List.pairwise_cons]
        refine ⟨?_, IH.2⟩
        intro it hit
        have := IH.1 it hit
        rw [hf.1] at this
        exact this

theorem preludeScan_split : ∀ (items : List ScannerItem) (orphans : List Str),
    ∃ pre, items = pre ++ (preludeScan orphans items).2.2 ∧
      List.Sublist ((preludeScan orphans items).2.1.map ToolboxFileIssue.line)
        (pre.map itemLine) := by
  intro items
  induction items with
  | nil =>
    intro orphans
    exact ⟨[], rfl, List.nil_sublist _⟩
  | cons it rest ih =>
    obtain ⟨ln, tok⟩ := it
    intro orphans
    cases tok with
    | recordBegin =>
      refine ⟨[(ln, Token.recordBegin)], rfl, ?_⟩
      simp [preludeScan]
    | recordEnd b =>
      obtain ⟨pre, hpre, hsub⟩ := ih orphans
      exact ⟨(ln, Token.recordEnd b) :: pre, by simp [preludeScan, ← hpre],
        hsub.trans (List.sublist_cons_self _ _)⟩
    | blank =>
      obtain ⟨pre, hpre, hsub⟩ := ih
        (if (orphans.getLast?.map (fun l => !isBlankStr l)).getD false
         then orphans ++ [[]] else orphans)
      exact ⟨(ln, Token.blank) :: pre, by simp [preludeScan, ← hpre],
        hsub.trans (List.sublist_cons_self _ _)⟩
    | tagged a b =>
      obtain ⟨pre, hpre, hsub⟩ := ih (orphans ++ [ln.text])
      refine ⟨(ln, Token.tagged a b) :: pre, by simp [preludeScan, ← hpre], ?_⟩
      simp only [preludeScan, List.map_cons]
      exact List.Sublist.cons₂ _ hsub
    | untagged a =>
      obtain ⟨pre, hpre, hsub⟩ := ih (orphans ++ [ln.text])
      refine ⟨(ln, Token.untagged a) :: pre, by simp [preludeScan, ← hpre], ?_⟩
      simp only [preludeScan, List.map_cons]
      exact List.Sublist.cons₂ _ hsub

theorem recordLoop_issues_sublist (rtag : Str) :
    ∀ (items : List ScannerItem) (label : Str) (m : MultiMap Str Str),
      List.Sublist ((recordLoop rtag items label m).2.map ToolboxFileIssue.line)
        (items.map itemLine) := by
  intro items
  induction items with
  | nil => intro label m; simp [recordLoop]
  | cons it rest ih =>
    obtain ⟨ln, tok⟩ := it
    intro label m
    cases tok with
    | tagged tag txt =>
      by_cases htag : tag = rtag
      · simp only [recordLoop, if_pos htag]
        by_cases ht : trimStr txt = []
        · simp only [if_pos ht, List.map_cons, List.map_append]
          exact List.Sublist.cons₂ _
            (ih (sanitize_label (trimStr (trimStr txt))) m)
        · simp only [if_neg ht]
          simpa using
            (ih (sanitize_label (trimStr (trimStr txt))) m).trans
              (List.sublist_cons_self _ _)
      · simp only [recordLoop, if_neg htag]
        exact (ih label m).trans (List.sublist_cons_self _ _)
    | untagged a =>
      simp only [recordLoop, List.map_cons]
      exact List.Sublist.cons₂ _ (ih label m)
    | recordEnd body =>
      simp only [recordLoop]
      exact (ih [] (mmInsert m label body)).trans (List.sublist_cons_self _ _)
    | recordBegin =>
      simp only [recordLoop]
      exact (ih label m).trans (List.sublist_cons_self _ _)
    | blank =>
      simp only [recordLoop]
      exact (ih label m).trans (List.sublist_cons_self _ _)

theorem recordSplitIssues_decomp (rtag : Str) (items : List ScannerItem)
    (issues0 : List ToolboxFileIssue) :
    recordSplitIssues rtag items issues0 =
      issues0 ++ recordSplitNewIssues rtag items := by
  simp [recordSplitIssues, recordSplitNewIssues, recordSplitParts,
    List.append_assoc]

theorem recordSplitNewIssues_sublist (rtag : Str) (items : List ScannerItem) :
    List.Sublist ((recordSplitNewIssues rtag items).map ToolboxFileIssue.line)
      (items.map itemLine) := by
  obtain ⟨pre, hpre, hsub⟩ := preludeScan_split items []
  have h2 := recordLoop_issues_sublist rtag (preludeScan [] items).2.2 [] []
  have hmain : (recordSplitNewIssues rtag items).map ToolboxFileIssue.line =
      (preludeScan [] items).2.1.map ToolboxFileIssue.line
        ++ ((recordLoop rtag (preludeScan [] items).2.2 [] []).2.map
              ToolboxFileIssue.line) := by
    simp [recordSplitNewIssues, recordSplitParts, List.map_append]
  rw [hmain]
  conv_rhs => rw [hpre]
  rw [List.map_append]
  exact List.Sublist.append hsub h2

/-- C8 — Diagnostic ordering: the issue list returned by the unique-id
splitter is sorted by source line unconditionally (it sorts explicitly),
and the issue list returned by the label splitter — which performs no
sort — is sorted by source line in scan order, provided the dictionary's
pre-existing issues are sorted and do not exceed the lines of the
splitter's own issues (as holds for the issues produced by loading). -/
theorem diagnostics_sorted (text rtag idtag : Str)
    (cap : Str → Option IdCaptures) (issues0 : List ToolboxFileIssue) :
    IssuesSortedByLine
      (idSplitIssues rtag idtag cap (Scanner.fromText text rtag).run issues0) ∧
    (IssuesSortedByLine issues0 →
     (∀ i ∈ issues0, ∀ j ∈ recordSplitNewIssues rtag
        (Scanner.fromText text rtag).run, i.line ≤ j.line) →
     IssuesSortedByLine
       (recordSplitIssues rtag (Scanner.fromText text rtag).run issues0)) := by
  constructor
  · exact sortByLine_sorted _
  · intro h0 hsep
    rw [recordSplitIssues_decomp]
    rw [IssuesSortedByLine, List.pairwise_append]
    refine ⟨h0, ?_, hsep⟩
    have hitems := (run_lines_pairwise (measureS (Scanner.fromText text rtag))
      (Scanner.fromText text rtag) (le_refl _) (le_refl _)).2
    have hlines : List.Pairwise (fun a b : Nat => a ≤ b)
        ((Scanner.fromText text rtag).run.map itemLine) :=
      List.pairwise_map.mpr hitems
    have hnew := recordSplitNewIssues_sublist rtag (Scanner.fromText text rtag).run
    have hsorted := hlines.sublist hnew
    exact List.pairwise_map.mp hsorted

/-- Recognizer for ambiguous-id diagnostics. -/
def isAmbiguousIssue : ToolboxFileIssue → Bool
  | ToolboxFileIssue.ambiguousID _ _ => true
  | _ => false

theorem preludeScan_no_ambiguous : ∀ (items : List ScannerItem)
    (orphans : List Str),
    ((preludeScan orphans items).2.1).countP isAmbiguousIssue = 0 := by
  intro items
  induction items with
  | nil => intro orphans; rfl
  | cons it rest ih =>
    obtain ⟨ln, tok⟩ := it
    intro orphans
    cases tok with
    | recordBegin => rfl
    | recordEnd b => exact ih orphans
    | blank => exact ih _
    | tagged a b =>
      simp only [preludeScan, List.countP_cons]
      rw [ih (orphans ++ [ln.text])]
      rfl
    | untagged a =>
      simp only [preludeScan, List.countP_cons]
      rw [ih (orphans ++ [ln.text])]
      rfl

theorem idLoop_no_ambiguous (rtag idtag : Str) (cap : Str → Option IdCaptures) :
    ∀ (items : List ScannerItem) (rstart ridline : Line) (rid : Option ID)
      (m : MultiMap ID IdRecord) (missing : List Str),
    ((idLoop rtag idtag cap items rstart ridline rid m missing).2.2).countP
      isAmbiguousIssue = 0 := by
  intro items
  induction items with
  | nil => intro rstart ridline rid m missing; rfl
  | cons it rest ih =>
    obtain ⟨ln, tok⟩ := it
    intro rstart ridline rid m missing
    cases tok with
    | tagged tag txt =>
      by_cases hr : tag = rtag
      · simp only [idLoop, if_pos hr, List.countP_append]
        rw [ih ln ridline rid m missing]
        cases hd : decide (trimStr txt = []) <;> simp [List.countP_cons, isAmbiguousIssue]
      · by_cases hi : tag = idtag
        · simp only [idLoop, if_neg hr, if_pos hi]
          cases hext : extract_id cap (trimStr txt) with
          | some i =>
            cases rid with
            | none =>
              simp only [List.countP_append]
              rw [ih rstart ln (some i) m missing]
              simp [isAmbiguousIssue, List.countP_cons, Option.isSome]
            | some j =>
              simp only [List.countP_append]
              rw [ih rstart ridline (some j) m missing]
              simp [isAmbiguousIssue, List.countP_cons, Option.isSome]
          | none =>
            simp only [List.countP_append, List.countP_cons]
            rw [ih rstart ridline rid m missing]
            cases rid <;> simp [isAmbiguousIssue, Option.isSome]
        · simp only [idLoop, if_neg hr, if_neg hi]
          exact ih rstart ridline rid m missing
    | untagged a =>
      simp only [idLoop, List.countP_cons]
      rw [ih rstart ridline rid m missing]
      rfl
    | recordBegin => exact ih rstart ridline rid m missing
    | blank => exact ih rstart ridline rid m missing
    | recordEnd body =>
      cases rid with
      | some i => exact ih rstart ridline none (mmInsert m i (rstart, ridline, body)) missing
      | none =>
        simp only [idLoop, List.countP_cons]
        rw [ih rstart ridline none m (missing ++ [body])]
        rfl

theorem ambiguousIssuesOf_count (m : MultiMap ID IdRecord) :
    (ambiguousIssuesOf m).countP isAmbiguousIssue =
      ((m.filter (fun kv => decide (1 < kv.2.length))).map
        (fun kv => kv.2.length)).sum := by
  have hall : ∀ i ∈ ambiguousIssuesOf m, isAmbiguousIssue i = true := by
    intro i hi
    unfold ambiguousIssuesOf at hi
    obtain ⟨l, hl, hil⟩ := List.mem_flatten.mp hi
    obtain ⟨kv, hkv, rfl⟩ := List.mem_map.mp hl
    obtain ⟨r, hr, rfl⟩ := List.mem_map.mp hil
    rfl
  rw [List.countP_eq_length.mpr hall]
  unfold ambiguousIssuesOf
  rw [List.length_flatten]
  rw [List.map_map]
  apply congrArg List.sum
  apply List.map_congr_left
  intro kv _
  simp [Function.comp, List.length_map]

theorem mmInsert_keys {α β : Type} [DecidableEq α] (m : MultiMap α β) (k : α)
    (v : β) :
    (mmInsert m k v).map Prod.fst =
      if k ∈ m.map Prod.fst then m.map Prod.fst
      else m.map Prod.fst ++ [k] := by
  induction m with
  | nil => simp [mmInsert]
  | cons kv rest ih =>
    obtain ⟨k', vs⟩ := kv
    by_cases hk : k' = k
    · subst hk
      simp [mmInsert]
    · simp only [mmInsert, if_neg hk, List.map_cons, ih]
      by_cases hmem : k ∈ rest.map Prod.fst
      · rw [if_pos hmem, if_pos (List.mem_cons_of_mem _ hmem)]
      · rw [if_neg hmem, if_neg (by
          intro hx
          rcases List.mem_cons.mp hx with h1 | h1
          · exact hk h1.symm
          · exact hmem h1)]
        simp

theorem keys_nodup_insert {α β : Type} [DecidableEq α] (m : MultiMap α β)
    (k : α) (v : β) (h : (m.map Prod.fst).Nodup) :
    ((mmInsert m k v).map Prod.fst).Nodup := by
  rw [mmInsert_keys]
  by_cases hmem : k ∈ m.map Prod.fst
  · rw [if_pos hmem]; exact h
  · rw [if_neg hmem]
    rw [List.nodup_append]
    refine ⟨h, List.nodup_singleton k, ?_⟩
    intro a ha hak
    rw [List.mem_singleton.mp hak] at ha
    exact hmem ha

theorem idLoop_keys_nodup (rtag idtag : Str) (cap : Str → Option IdCaptures) :
    ∀ (items : List ScannerItem) (rstart ridline : Line) (rid : Option ID)
      (m : MultiMap ID IdRecord) (missing : List Str),
    (m.map Prod.fst).Nodup →
    (((idLoop rtag idtag cap items rstart ridline rid m missing).1).map
      Prod.fst).Nodup := by
  intro items
  induction items with
  | nil => intro rstart ridline rid m missing h; exact h
  | cons it rest ih =>
    obtain ⟨ln, tok⟩ := it
    intro rstart ridline rid m missing h
    cases tok with
    | tagged tag txt =>
      by_cases hr : tag = rtag
      · simp only [idLoop, if_pos hr]
        exact ih ln ridline rid m missing h
      · by_cases hi : tag = idtag
        · simp only [idLoop, if_neg hr, if_pos hi]
          cases hext : extract_id cap (trimStr txt) with
          | some i =>
            cases rid with
            | none => exact ih rstart ln (some i) m missing h
            | some j => exact ih rstart ridline (some j) m missing h
          | none => exact ih rstart ridline rid m missing h
        · simp only [idLoop, if_neg hr, if_neg hi]
          exact ih rstart ridline rid m missing h
    | untagged a => exact ih rstart ridline rid m missing h
    | recordBegin => exact ih rstart ridline rid m missing h
    | blank => exact ih rstart ridline rid m missing h
    | recordEnd body =>
      cases rid with
      | some i =>
        exact ih rstart ridline none (mmInsert m i (rstart, ridline, body)) missing
          (keys_nodup_insert m i (rstart, ridline, body) h)
      | none => exact ih rstart ridline none m (missing ++ [body]) h

theorem countP_key_one {α β : Type} [DecidableEq α] :
    ∀ (m : MultiMap α β) (k : α) (g : List β), (k, g) ∈ m →
      (m.map Prod.fst).Nodup →
      m.countP (fun kv => kv.1 = k) = 1 := by
  intro m
  induction m with
  | nil => intro k g h _; exact absurd h (List.not_mem_nil _)
  | cons kv rest ih =>
    intro k g hmem hnd
    rw [List.map_cons, List.nodup_cons] at hnd
    obtain ⟨hnotin, hndrest⟩ := hnd
    rcases List.mem_cons.mp hmem with rfl | hmem'
    · rw [List.countP_cons]
      have hzero : rest.countP (fun kv => decide (kv.1 = k)) = 0 := by
        rw [List.countP_eq_zero]
        intro a ha hp
        apply hnotin
        have hak : a.1 = k := by simpa using hp
        exact List.mem_map.mpr ⟨a, ha, hak⟩
      rw [hzero]
      simp
    · rw [List.countP_cons]
      have hne : ¬(kv.1 = k) := by
        intro hx
        apply hnotin
        rw [hx]
        exact List.mem_map.mpr ⟨(k, g), hmem', rfl⟩
      rw [ih k g hmem' hndrest]
      simp [hne]

/-- C5 — Merge-not-reject: whenever an id key holds two or more record
occurrences in the unique-id splitter's grouping, the key occurs exactly
once in the grouping (the records are merged, never rejected), the single
merged content object for that key is emitted, and the returned issue list
contains exactly one ambiguous-id diagnostic per occurrence of every
duplicated key — hence at least two. -/
theorem merge_not_reject (rtag idtag : Str) (cap : Str → Option IdCaptures)
    (items : List ScannerItem) (issues0 : List ToolboxFileIssue)
    (k : ID) (g : List IdRecord)
    (hk : (k, g) ∈ (idSplitParts rtag idtag cap items []).1)
    (hg : 2 ≤ g.length)
    (h0 : issues0.countP isAmbiguousIssue = 0) :
    ((idSplitParts rtag idtag cap items []).1.countP (fun kv => kv.1 = k) = 1) ∧
    idClobOf (k, g) ∈ idSplitClobs rtag idtag cap items ∧
    ((idSplitIssues rtag idtag cap items issues0).countP isAmbiguousIssue =
      (((idSplitParts rtag idtag cap items []).1.filter
          (fun kv => decide (1 < kv.2.length))).map (fun kv => kv.2.length)).sum) ∧
    2 ≤ (idSplitIssues rtag idtag cap items issues0).countP isAmbiguousIssue := by
  have hnd : (((idSplitParts rtag idtag cap items []).1).map Prod.fst).Nodup := by
    unfold idSplitParts
    exact idLoop_keys_nodup rtag idtag cap _ _ _ none [] [] (by simp)
  have hcount :
      (idSplitIssues rtag idtag cap items issues0).countP isAmbiguousIssue =
        (((idSplitParts rtag idtag cap items []).1.filter
            (fun kv => decide (1 < kv.2.length))).map (fun kv => kv.2.length)).sum := by
    have hperm : List.Perm
        (idSplitIssues rtag idtag cap items issues0)
        (issues0 ++ (preludeScan [] items).2.1
          ++ (idLoop rtag idtag cap (preludeScan [] items).2.2
               { line := 0, text := [] } { line := 0, text := [] } none [] []).2.2
          ++ ambiguousIssuesOf
              (idLoop rtag idtag cap (preludeScan [] items).2.2
                { line := 0, text := [] } { line := 0, text := [] } none [] []).1) :=
      sortByLine_perm _
    rw [hperm.countP_eq]
    rw [List.countP_append, List.countP_append, List.countP_append]
    rw [h0, preludeScan_no_ambiguous items [],
      idLoop_no_ambiguous rtag idtag cap _ _ _ none [] [],
      ambiguousIssuesOf_count]
    simp [idSplitParts]
  refine ⟨countP_key_one _ k g hk hnd, ?_, hcount, ?_⟩
  · unfold idSplitClobs
    exact List.mem_append_left _
      (List.mem_append_left _ (List.mem_map_of_mem idClobOf hk))
  · rw [hcount]
    have hmemf : (k, g) ∈ (idSplitParts rtag idtag cap items []).1.filter
        (fun kv => decide (1 < kv.2.length)) := by
      rw [List.mem_filter]
      exact ⟨hk, by simpa using hg⟩
    have hmeml : g.length ∈ ((idSplitParts rtag idtag cap items []).1.filter
        (fun kv => decide (1 < kv.2.length))).map (fun kv => kv.2.length) :=
      List.mem_map_of_mem _ hmemf
    have hle := List.single_le_sum (by intro x _; exact Nat.zero_le x) _ hmeml
    omega

/-- A concrete id-capture function used by the witnesses: the pattern that
matches the whole value as the `id` group with no namespace. -/
def capFullAsId : Str → Option IdCaptures :=
  fun t => some { m0 := t, ns := none, idGroup := t }

/-- A concrete token stream with two records sharing id `x`. -/
def demoIdItems : List ScannerItem :=
  (Scanner.fromText "\\lx a\n\\id x\n\\lx b\n\\id x\n".toList "\\lx".toList).run

/-- The duplicated id key of `demoIdItems`. -/
def demoIdKey : ID := { full := "x".toList, ns := none, id := "x".toList }

/-- The two record occurrences stored under `demoIdKey`. -/
def demoIdGroup : List IdRecord :=
  [({ line := 0, text := "\\lx a".toList }, { line := 1, text := "\\id x".toList },
    "\\lx a\n\\id x\n".toList),
   ({ line := 2, text := "\\lx b".toList }, { line := 3, text := "\\id x".toList },
    "\\lx b\n\\id x\n".toList)]

/-- Witness for C5: on the concrete duplicate-id stream, the hypotheses
hold and the splitter reports at least two ambiguous-id diagnostics. -/
theorem merge_not_reject_witness :
    ((demoIdKey, demoIdGroup) ∈
      (idSplitParts "\\lx".toList "\\id".toList capFullAsId demoIdItems []).1) ∧
    2 ≤ demoIdGroup.length ∧
    ([] : List ToolboxFileIssue).countP isAmbiguousIssue = 0 ∧
    2 ≤ (idSplitIssues "\\lx".toList "\\id".toList capFullAsId
          demoIdItems []).countP isAmbiguousIssue :=
  ⟨by decide, by decide, by decide,
   (merge_not_reject "\\lx".toList "\\id".toList capFullAsId demoIdItems []
      demoIdKey demoIdGroup (by decide) (by decide) (by decide)).2.2.2⟩

/-- Witness for C8: on a concrete dictionary text with an untagged line,
both splitters return line-sorted diagnostics (pre-existing issues empty,
so the label-variant hypotheses hold trivially). -/
theorem diagnostics_sorted_witness :
    IssuesSortedByLine ([] : List ToolboxFileIssue) ∧
    IssuesSortedByLine (idSplitIssues "\\lx".toList "\\id".toList capFullAsId
      (Scanner.fromText "\\lx foo\nbar\n\\lx baz\n".toList "\\lx".toList).run []) ∧
    IssuesSortedByLine (recordSplitIssues "\\lx".toList
      (Scanner.fromText "\\lx foo\nbar\n\\lx baz\n".toList "\\lx".toList).run []) :=
  ⟨List.Pairwise.nil,
   (diagnostics_sorted "\\lx foo\nbar\n\\lx baz\n".toList "\\lx".toList
      "\\id".toList capFullAsId []).1,
   (diagnostics_sorted "\\lx foo\nbar\n\\lx baz\n".toList "\\lx".toList
      "\\id".toList capFullAsId []).2 List.Pairwise.nil (by simp)⟩

end GitToolbox
